import Mathlib

/-!
# Files API: path validation, the sandboxed file store and directory statistics

A shallow embedding of `api.go` (`validatePath`, `validateData`), `file.go`
(`NewServiceFile`, `Create`, `GetFileData`, `constructFullPath`) and `stats.go`
(`GetStats`, `getAlphanumCharCount`, `getWordCount`, `calcAvgAndStdDev`).

Conventions of the embedding.

* A Go `string` is taken to hold valid UTF-8 text and is represented by the list of
  its code points (`GoString`).  `len` is the byte length of the UTF-8 encoding.
* The Go standard library functions the code calls (`strings.Split`, `strings.Join`,
  `strings.HasPrefix`, `strings.HasSuffix`, `strings.TrimRight`, `strings.Fields`,
  `unicode.IsSpace`, `filepath.Clean` on a Unix system, the regular expression
  `[a-zA-Z0-9]`) are modelled after their documented behaviour and their library
  implementation.
* `float64` is idealised as a field `K` with decidable equality; `math.Sqrt` is a
  parameter `sqrt : K → K`.  The statements about numerical results instantiate
  `K` with the real numbers and `sqrt` with `Real.sqrt`; the evaluations of single
  files use the rationals.
* Go `int` and `int64` values are unbounded integers: the quantities stored in them
  (counts of list elements, byte sizes reported for a directory) stay far below `2^63`.
-/

namespace FilesAPI

/-! ## Strings -/

/-- A Go string holding valid UTF-8 text, as the list of its code points. -/
abbrev GoString := List Char

/-- Go's builtin `len` on a string: the number of bytes of its UTF-8 encoding. -/
def len (s : GoString) : Nat := (s.map Char.utf8Size).sum

/-- Model of `strings.HasPrefix`. -/
def stringsHasPrefix (s pre : GoString) : Bool := pre.isPrefixOf s

/-- Model of `strings.HasSuffix`. -/
def stringsHasSuffix (s suffix : GoString) : Bool := suffix.isSuffixOf s

/-- Model of `strings.Split(s, sep)` for a separator of one character: the pieces of `s`
between the occurrences of `sep`, one more piece than there are occurrences. -/
def stringsSplit (s : GoString) (sep : Char) : List GoString := s.splitOn sep

/-- Model of `strings.Join(elems, sep)`. -/
def stringsJoin (elems : List GoString) (sep : GoString) : GoString := sep.intercalate elems

/-- Model of `strings.TrimRight(s, cutset)`: all trailing code points contained in
`cutset` are removed. -/
def stringsTrimRight (s cutset : GoString) : GoString :=
  s.rdropWhile (fun c => cutset.elem c)

/-- Model of `unicode.IsSpace`: the code points with Unicode's White Space property. -/
def unicodeIsSpace (c : Char) : Bool :=
  let n := c.toNat
  (9 ≤ n && n ≤ 13) || n == 32 || n == 133 || n == 160 || n == 5760
    || (8192 ≤ n && n ≤ 8202) || n == 8232 || n == 8233 || n == 8239 || n == 8287
    || n == 12288

/-- The loop of `strings.FieldsFunc`: `cur` is the field being read (`none` while
between fields, the library's `start < 0`). -/
def fieldsLoop : GoString → Option GoString → List GoString
  | [], none => []
  | [], some w => [w]
  | c :: cs, none => if unicodeIsSpace c then fieldsLoop cs none else fieldsLoop cs (some [c])
  | c :: cs, some w =>
    if unicodeIsSpace c then w :: fieldsLoop cs none else fieldsLoop cs (some (w ++ [c]))

/-- Model of `strings.Fields`: the maximal runs of non-space code points, in order. -/
def stringsFields (s : GoString) : List GoString := fieldsLoop s none

/-! ## `filepath.Clean` (Unix) -/

/-- The statements `out.w--; for out.w > dotdot && out.index(out.w) != '/' { out.w-- }`
of `Clean`, started at the write index `w` reached by the first decrement; `buf` is the
content of the buffer, which the loop reads and does not change. -/
def cleanBacktrack (buf : GoString) (dotdot : Nat) : Nat → Nat
  | 0 => 0
  | w + 1 =>
    if w + 1 > dotdot ∧ buf[w + 1]? ≠ some '/' then cleanBacktrack buf dotdot w else w + 1

/-- The main loop of `Clean`: `rest` is the unread part `path[r:]`, `out` the written
part of the buffer (`out.w` is its length), `dotdot` the index where `..` must stop.
Every iteration reads at least one character, so a fuel of `len(path)` is never used up. -/
def cleanLoop (rooted : Bool) : Nat → GoString → GoString → Nat → GoString
  | 0, _, out, _ => out
  | _ + 1, [], out, _ => out
  | fuel + 1, c :: tl, out, dotdot =>
    if c = '/' then
      -- empty path element
      cleanLoop rooted fuel tl out dotdot
    else if c = '.' ∧ (tl = [] ∨ tl.head? = some '/') then
      -- . element
      cleanLoop rooted fuel tl out dotdot
    else if c = '.' ∧ tl.head? = some '.' ∧ (tl.tail = [] ∨ tl.tail.head? = some '/') then
      -- .. element: remove to last /
      if out.length > dotdot then
        cleanLoop rooted fuel tl.tail
          (out.take (cleanBacktrack out dotdot (out.length - 1))) dotdot
      else if !rooted then
        let out1 := (if out.length > 0 then out ++ ['/'] else out) ++ ['.', '.']
        cleanLoop rooted fuel tl.tail out1 out1.length
      else
        cleanLoop rooted fuel tl.tail out dotdot
    else
      -- real path element: add slash if needed, copy element
      let out1 :=
        if (rooted && out.length != 1) || (!rooted && out.length != 0) then out ++ ['/']
        else out
      cleanLoop rooted fuel ((c :: tl).dropWhile (· != '/'))
        (out1 ++ (c :: tl).takeWhile (· != '/')) dotdot

/-- Model of `filepath.Clean` on a Unix system (no volume name, separator `/`). -/
def filepathClean (path : GoString) : GoString :=
  if path = [] then ['.']
  else
    let rooted := path.head? == some '/'
    let out :=
      if rooted then cleanLoop true path.length path.tail ['/'] 1
      else cleanLoop false path.length path [] 0
    if out.length = 0 then ['.'] else out

/-! ## `api.go`: validation -/

/-- The internal errors of `api.go`. -/
inductive APIError where
  | errInternalInvalidJSONBody
  | errInternalInvalidPath
  | errInternalNoData
  | errInternalInvalidFilename
  | errInternalCreatingOrWritingFile
  | errInternalFileNotFound
  | errInternalPathNotFound
  | errInternalGeneric
  deriving DecidableEq, Repr

/-- A path that went through `validatePath`. -/
structure ValidatedPath where
  Path : GoString
  deriving DecidableEq, Repr

/-- Data that went through `validateData`. -/
structure ValidatedData where
  Data : GoString
  deriving DecidableEq, Repr

/-- The function `validatePath` of `api.go`. -/
def validatePath (path : GoString) (filenameCheck : Bool) : Except APIError ValidatedPath :=
  if path = [] then .error .errInternalInvalidPath
  else if !stringsHasPrefix path ['/'] then .error .errInternalInvalidPath
  else
    let checked : Except APIError Unit :=
      if filenameCheck then
        let splitPath := stringsSplit path '/'
        let filename := splitPath.getLastD []
        if !stringsHasSuffix filename ".txt".toList then .error .errInternalInvalidFilename
        else if len (stringsTrimRight filename ".txt".toList) = 0 then
          .error .errInternalInvalidFilename
        else .ok ()
      else .ok ()
    match checked with
    | .error e => .error e
    | .ok () => .ok { Path := filepathClean path }

/-- The function `validateData` of `api.go`. -/
def validateData (data : GoString) : Except APIError ValidatedData :=
  if data = [] then .error .errInternalNoData else .ok { Data := data }

/-! ## `file.go`: the service file -/

/-- The root folder of the service. -/
def RootPath : GoString := "filesys".toList

/-- The internal representation of a file. -/
structure ServiceFile where
  name : GoString
  path : GoString
  data : GoString
  deriving DecidableEq, Repr

/-- The function `NewServiceFile` of `file.go`. -/
def NewServiceFile (vp : ValidatedPath) (vd : ValidatedData) : ServiceFile :=
  let splitPath := stringsSplit vp.Path '/'
  let filename := splitPath.getLastD []
  let pathToFile := stringsJoin splitPath.dropLast ['/']
  { name := filename, path := RootPath ++ pathToFile, data := vd.Data }

/-- The method `constructFullPath` of `file.go`. -/
def ServiceFile.constructFullPath (sf : ServiceFile) : GoString :=
  sf.path ++ ['/'] ++ sf.name


/-! ## `file.go`: the file store

The filesystem is a map from full path to what is stored there.  The operating system
calls are modelled with the failures that the map can express (a directory in the place
of a file, a file in the place of a directory, a missing file, a path the system refuses
to touch). -/

/-- The permission flag used to create folders. -/
def DefaultFolderPermission : Nat := 0o755

/-- The permission flag used to create files. -/
def DefaultFilePermission : Nat := 0o644

/-- What the filesystem holds at a full path. -/
inductive Node where
  | file (data : GoString)
  | dir
  deriving DecidableEq, Repr

/-- Errors of the operating system calls. -/
inductive OSError where
  | notExist
  | isDirectory
  | notDirectory
  | permission
  deriving DecidableEq, Repr

/-- A filesystem: what is stored at each full path, and the paths on which the system
refuses every operation. -/
structure FileSys where
  nodes : GoString → Option Node
  denied : GoString → Bool

/-- The filesystem with `node` stored at `path`. -/
def FileSys.store (fs : FileSys) (path : GoString) (node : Node) : FileSys :=
  { fs with nodes := fun q => if q = path then some node else fs.nodes q }

/-- An open file (`*os.File`): its name and the offset of the next write. -/
structure OSFile where
  name : GoString
  offset : Nat
  deriving DecidableEq, Repr

/-- Model of `os.MkdirAll(path, perm)`: succeeds when `path` is a directory already,
creates it when nothing is there, fails when a file is in its place. -/
def osMkdirAll (fs : FileSys) (path : GoString) (_perm : Nat) : Except OSError FileSys :=
  if fs.denied path then .error .permission
  else
    match fs.nodes path with
    | some (.file _) => .error .notDirectory
    | some .dir => .ok fs
    | none => .ok (fs.store path .dir)

/-- Model of `os.Create(name)`: creates the file or truncates the one that is there, and
returns it open at offset 0. -/
def osCreate (fs : FileSys) (name : GoString) : Except OSError (FileSys × OSFile) :=
  if fs.denied name then .error .permission
  else
    match fs.nodes name with
    | some .dir => .error .isDirectory
    | _ => .ok (fs.store name (.file []), { name := name, offset := 0 })

/-- Model of `(*os.File).Write(b)`: `b` replaces the content from the offset of the file
on (positions are counted in code points, the unit of `GoString`); the result is the
filesystem and the number of bytes written. A file just returned by `os.Create` is empty
and at offset 0, so its content becomes `b`. -/
def OSFile.Write (osFile : OSFile) (fs : FileSys) (b : GoString) :
    Except OSError (FileSys × Nat) :=
  match fs.nodes osFile.name with
  | some (.file old) =>
    .ok (fs.store osFile.name
      (.file (old.take osFile.offset ++ b ++ old.drop (osFile.offset + b.length))), len b)
  | some .dir => .error .isDirectory
  | none => .error .notExist

/-- Model of `ioutil.ReadFile(filename)`. -/
def ioutilReadFile (fs : FileSys) (filename : GoString) : Except OSError GoString :=
  if fs.denied filename then .error .permission
  else
    match fs.nodes filename with
    | some (.file data) => .ok data
    | some .dir => .error .isDirectory
    | none => .error .notExist

/-- Model of `os.Remove(name)` for a file. -/
def osRemove (fs : FileSys) (name : GoString) : Except OSError FileSys :=
  if fs.denied name then .error .permission
  else
    match fs.nodes name with
    | some _ => .ok { fs with nodes := fun q => if q = name then none else fs.nodes q }
    | none => .error .notExist

/-- The method `GetFileData` of `file.go`. -/
def ServiceFile.GetFileData (sf : ServiceFile) (fs : FileSys) : Except OSError GoString :=
  match ioutilReadFile fs (sf.path ++ ['/'] ++ sf.name) with
  | .error err => .error err
  | .ok fileBytes => .ok fileBytes

/-- The method `createOSPath` of `file.go`. -/
def ServiceFile.createOSPath (sf : ServiceFile) (fs : FileSys) : Except OSError FileSys :=
  match osMkdirAll fs sf.path DefaultFolderPermission with
  | .error err => .error err
  | .ok fs1 => .ok fs1

/-- The method `createOSFile` of `file.go`. -/
def ServiceFile.createOSFile (sf : ServiceFile) (fs : FileSys) :
    Except OSError (FileSys × OSFile) :=
  match osCreate fs sf.constructFullPath with
  | .error err => .error err
  | .ok (fs1, osFile) => .ok (fs1, osFile)

/-- The method `writeToOSFile` of `file.go`. -/
def ServiceFile.writeToOSFile (sf : ServiceFile) (fs : FileSys) (osFile : OSFile) :
    Except OSError FileSys :=
  match osFile.Write fs sf.data with
  | .error err => .error err
  | .ok (fs1, _) => .ok fs1

/-- The method `Create` of `file.go`. -/
def ServiceFile.Create (sf : ServiceFile) (fs : FileSys) : Except OSError FileSys :=
  match sf.createOSPath fs with
  | .error err => .error err
  | .ok fs1 =>
    match sf.createOSFile fs1 with
    | .error err => .error err
    | .ok (fs2, osFile) =>
      match sf.writeToOSFile fs2 osFile with
      | .error err => .error err
      | .ok fs3 => .ok fs3

/-- The method `Delete` of `file.go`. -/
def ServiceFile.Delete (sf : ServiceFile) (fs : FileSys) : Except OSError FileSys :=
  match osRemove fs sf.constructFullPath with
  | .error err => .error err
  | .ok fs1 => .ok fs1

/-- The filesystem that holds nothing and refuses nothing. -/
def emptyFileSys : FileSys := { nodes := fun _ => none, denied := fun _ => false }

/-! ## `stats.go`: directory statistics -/

/-- The internal struct `stats` that holds data for calculation. -/
structure stats where
  alphanumericCharsCountPerFile : List Int
  wordlengths : List Int
  deriving DecidableEq, Repr

/-- The struct `Stats` returned by the `/stats` endpoint; `K` stands for `float64`. -/
structure Stats (K : Type) where
  FileCount : Int
  AlphanumericCharsPercentage : GoString → Option K
  AlphanumericCharsStdDev : K
  WordLenAvg : K
  WordLenStdDev : K
  BytesTotal : Int
  internal : stats

/-- One entry of a directory as `ioutil.ReadDir` reports it (`os.FileInfo`). -/
structure FileInfo where
  Name : GoString
  Size : Int
  IsDir : Bool
  deriving DecidableEq, Repr

/-- What `GetStats` observes of the filesystem: the answer of `ioutil.ReadDir` and of
`ioutil.ReadFile` at each path. -/
structure Snapshot where
  ReadDir : GoString → Except OSError (List FileInfo)
  ReadFile : GoString → Except OSError GoString

/-- The character class `[a-zA-Z0-9]`. -/
def isAlphanumeric (c : Char) : Bool :=
  ('a' ≤ c && c ≤ 'z') || ('A' ≤ c && c ≤ 'Z') || ('0' ≤ c && c ≤ '9')

/-- Model of `regexp.MustCompile("[a-zA-Z0-9]").FindAllString(data, -1)`: the successive
matches of the class, each one character long. -/
def findAllAlphanumeric (data : GoString) : List GoString :=
  (data.filter isAlphanumeric).map (fun c => [c])

/-- The method `getAlphanumCharCount` of `stats.go`. -/
def Stats.getAlphanumCharCount {K : Type} [Field K] (s : Stats K)
    (filename data : GoString) : Stats K :=
  if len data = 0 then s
  else
    let alphanumCount := (findAllAlphanumeric data).length
    if alphanumCount = 0 then s
    else
      { s with
        AlphanumericCharsPercentage := fun key =>
          if key = filename then some ((alphanumCount : K) / (len data : K))
          else s.AlphanumericCharsPercentage key
        internal :=
          { s.internal with
            alphanumericCharsCountPerFile :=
              s.internal.alphanumericCharsCountPerFile ++ [(alphanumCount : Int)] } }

/-- The method `getWordCount` of `stats.go`. -/
def Stats.getWordCount {K : Type} (s : Stats K) (data : GoString) : Stats K :=
  let words := stringsFields data
  words.foldl
    (fun s word =>
      { s with
        internal :=
          { s.internal with wordlengths := s.internal.wordlengths ++ [(len word : Int)] } })
    s

/-- The function `calcAvgAndStdDev` of `stats.go`; `sqrt` stands for `math.Sqrt`. -/
def calcAvgAndStdDev {K : Type} [Field K] [DecidableEq K] (sqrt : K → K)
    (collection : List Int) : K × K :=
  let sum : K := collection.foldl (fun (sum : K) (n : Int) => sum + (n : K)) 0
  if sum = 0 then (-1, -1)
  else
    let avg := sum / (collection.length : K)
    let sums : K × K :=
      collection.foldl
        (fun (acc : K × K) (n : Int) => (acc.1 + (n : K), acc.2 + ((n : K) - avg) ^ 2))
        (sum, 0)
    (avg, sqrt (sums.2 / (collection.length : K)))

/-- The value of `new(Stats)` after `GetStats` has made its map and its internal struct. -/
def newStats (K : Type) [Field K] : Stats K :=
  { FileCount := 0
    AlphanumericCharsPercentage := fun _ => none
    AlphanumericCharsStdDev := 0
    WordLenAvg := 0
    WordLenStdDev := 0
    BytesTotal := 0
    internal := { alphanumericCharsCountPerFile := [], wordlengths := [] } }

/-- The loop `for _, f := range fi` of `GetStats`, on the state made of `s` and
`allFileData`; a failing `ioutil.ReadFile` ends it with the error. -/
def getStatsLoop {K : Type} [Field K] (os : Snapshot) (path : GoString) :
    List FileInfo → Stats K × GoString → Except OSError (Stats K × GoString)
  | [], state => .ok state
  | f :: rest, (s, allFileData) =>
    let s := { s with BytesTotal := s.BytesTotal + f.Size }
    if !f.IsDir then
      let s := { s with FileCount := s.FileCount + 1 }
      match os.ReadFile (path ++ ['/'] ++ f.Name) with
      | .error err => .error err
      | .ok fileBytes =>
        let allFileData := allFileData ++ (fileBytes ++ ['\n'])
        let s := s.getAlphanumCharCount f.Name fileBytes
        getStatsLoop os path rest (s, allFileData)
    else getStatsLoop os path rest (s, allFileData)

/-- The function `GetStats` of `stats.go`. -/
def GetStats {K : Type} [Field K] [DecidableEq K] (sqrt : K → K) (os : Snapshot)
    (path : GoString) : Except OSError (Stats K) :=
  let s := newStats K
  let path := RootPath ++ path
  let path := if stringsHasSuffix path ['/'] then stringsTrimRight path ['/'] else path
  match os.ReadDir path with
  | .error err => .error err
  | .ok fi =>
    match getStatsLoop os path fi (s, []) with
    | .error err => .error err
    | .ok (s, allFileData) =>
      let s := s.getWordCount allFileData
      let s :=
        { s with
          AlphanumericCharsStdDev :=
            (calcAvgAndStdDev sqrt s.internal.alphanumericCharsCountPerFile).2 }
      let r := calcAvgAndStdDev sqrt s.internal.wordlengths
      .ok { s with WordLenAvg := r.1, WordLenStdDev := r.2 }

/-! ## Reference definitions for the statements about statistics -/

/-- The average of the population: the sum divided by the number of elements. -/
def populationAvg {K : Type} [Field K] (collection : List Int) : K :=
  ((collection.sum : Int) : K) / (collection.length : K)

/-- The standard deviation of the population: the square root of the sum of the squared
differences to the average, divided by the number of elements. -/
def populationStdDev {K : Type} [Field K] (sqrt : K → K) (collection : List Int) : K :=
  sqrt ((collection.map (fun (x : Int) => ((x : K) - populationAvg collection) ^ 2)).sum
    / (collection.length : K))

/-- The whitespace-delimited words of a text: the text is cut at every whitespace
character and the empty pieces are dropped. -/
def wordsOf (text : GoString) : List GoString :=
  (text.splitOnP unicodeIsSpace).filter (fun w => !w.isEmpty)

/-- The directory that `GetStats` lists for a path: the storage root followed by the
path, without trailing slashes. -/
def statsDir (path : GoString) : GoString :=
  if stringsHasSuffix (RootPath ++ path) ['/'] then stringsTrimRight (RootPath ++ path) ['/']
  else RootPath ++ path

/-- The regular files of a listing with name and content, in the order of the listing;
the first read that fails gives the error. -/
def regularFiles (os : Snapshot) (dir : GoString) :
    List FileInfo → Except OSError (List (GoString × GoString))
  | [] => .ok []
  | f :: rest =>
    if f.IsDir then regularFiles os dir rest
    else
      match os.ReadFile (dir ++ ['/'] ++ f.Name) with
      | .error err => .error err
      | .ok data =>
        match regularFiles os dir rest with
        | .error err => .error err
        | .ok files => .ok ((f.Name, data) :: files)

/-- The number of characters of a content in the ASCII class `[A-Za-z0-9]`; each of them
is one byte of the content. -/
def alphanumCount (data : GoString) : Nat := data.countP isAlphanumeric

/-- The alphanumeric counts of the files that have an alphanumeric character, in order. -/
def alphanumCounts (files : List (GoString × GoString)) : List Int :=
  (files.filter (fun nd => alphanumCount nd.2 != 0)).map (fun nd => (alphanumCount nd.2 : Int))

/-- The ratio map `m` after the files were recorded in order: a file with an alphanumeric
character sets the entry of its name to count over byte length. -/
def ratioMap {K : Type} [Field K] (m : GoString → Option K)
    (files : List (GoString × GoString)) : GoString → Option K :=
  files.foldl
    (fun m nd =>
      if alphanumCount nd.2 = 0 then m
      else fun key =>
        if key = nd.1 then some ((alphanumCount nd.2 : K) / (len nd.2 : K)) else m key)
    m

/-- The combined buffer of file contents: every content followed by a newline. -/
def combinedBuffer (contents : List GoString) : GoString :=
  (contents.map (· ++ ['\n'])).flatten

/-- The report of `GetStats` written out from the listing `fi` of the directory and the
regular files `files` (name and content) that were read from it. -/
def statsReport {K : Type} [Field K] [DecidableEq K] (sqrt : K → K) (fi : List FileInfo)
    (files : List (GoString × GoString)) : Stats K :=
  let lengths : List Int :=
    ((files.map (fun nd => wordsOf nd.2)).flatten).map (fun w => (len w : Int))
  { FileCount := (files.length : Int)
    AlphanumericCharsPercentage := ratioMap (fun _ => none) files
    AlphanumericCharsStdDev := (calcAvgAndStdDev sqrt (alphanumCounts files)).2
    WordLenAvg := (calcAvgAndStdDev sqrt lengths).1
    WordLenStdDev := (calcAvgAndStdDev sqrt lengths).2
    BytesTotal := (fi.map (·.Size)).sum
    internal := { alphanumericCharsCountPerFile := alphanumCounts files, wordlengths := lengths } }

/-- The snapshot in which `ioutil.ReadDir` reports no directory entries. -/
def withoutDirs (os : Snapshot) : Snapshot :=
  { os with
    ReadDir := fun p =>
      match os.ReadDir p with
      | .error err => .error err
      | .ok fi => .ok (fi.filter (fun f => !f.IsDir)) }

/-- A snapshot of one directory `filesys/<dir>` given by its listing and the content of
its regular files by name. -/
def snapshotOf (dir : GoString) (fi : List FileInfo) (content : GoString → Option GoString) :
    Snapshot :=
  { ReadDir := fun p => if p = dir then .ok fi else .error .notExist
    ReadFile := fun p =>
      match (fi.filter (fun f => !f.IsDir)).find? (fun f => dir ++ ['/'] ++ f.Name == p) with
      | some f =>
        match content f.Name with
        | some d => .ok d
        | none => .error .permission
      | none => .error .notExist }

/-- No regular file of the listing holds a whitespace-delimited word. -/
def NoWord (os : Snapshot) (dir : GoString) (fi : List FileInfo) : Prop :=
  ∀ f ∈ fi, f.IsDir = false →
    ∀ data, os.ReadFile (dir ++ ['/'] ++ f.Name) = .ok data → wordsOf data = []

/-- No regular file of the listing holds an ASCII alphanumeric character. -/
def NoAlphanumeric (os : Snapshot) (dir : GoString) (fi : List FileInfo) : Prop :=
  ∀ f ∈ fi, f.IsDir = false →
    ∀ data, os.ReadFile (dir ++ ['/'] ++ f.Name) = .ok data → alphanumCount data = 0

/-- The listing of a directory with the two files `a.txt` (3 bytes) and `b.txt` (5 bytes). -/
def exampleListing : List FileInfo :=
  [{ Name := "a.txt".toList, Size := 3, IsDir := false },
   { Name := "b.txt".toList, Size := 5, IsDir := false }]

/-- The directory `filesys` that holds `a.txt` with `ab1` and `b.txt` with `cd 22`. -/
def exampleDir : Snapshot :=
  snapshotOf RootPath exampleListing
    (fun name =>
      if name = "a.txt".toList then some "ab1".toList
      else if name = "b.txt".toList then some "cd 22".toList
      else none)

/-- The directory `filesys` that holds the single empty file `empty.txt`. -/
def emptyFileDir : Snapshot :=
  snapshotOf RootPath [{ Name := "empty.txt".toList, Size := 0, IsDir := false }]
    (fun name => if name = "empty.txt".toList then some [] else none)

/-! ## Shapes of paths used in the statements -/

/-- A path element that `Clean` keeps in a rooted path: not empty, without a slash,
and not the parent directory. -/
def NormalElem (e : GoString) : Prop := e ≠ [] ∧ '/' ∉ e ∧ e ≠ ['.', '.']

/-- The rooted path made of the given elements. -/
def rootedPath (segs : List GoString) : GoString := '/' :: stringsJoin segs ['/']

/-! ## Facts about the string functions -/

theorem stringsJoin_snoc (segs : List GoString) (e : GoString) (h : segs ≠ []) :
    stringsJoin (segs ++ [e]) ['/'] = stringsJoin segs ['/'] ++ '/' :: e := by
  induction segs with
  | nil => exact absurd rfl h
  | cons a t ih =>
    cases t with
    | nil => simp [stringsJoin, List.intercalate]
    | cons b t =>
      have := ih (by simp)
      simp only [stringsJoin, List.intercalate, List.cons_append, List.intersperse_cons₂,
        List.flatten_cons] at this ⊢
      rw [this]
      simp

theorem stringsJoin_singleton (e : GoString) : stringsJoin [e] ['/'] = e := by
  simp [stringsJoin, List.intercalate]

theorem stringsSplit_ne_nil (s : GoString) (sep : Char) : stringsSplit s sep ≠ [] :=
  List.splitOnP_ne_nil _ _

theorem not_mem_of_mem_splitOnP (p : Char → Bool) (s : GoString) :
    ∀ l ∈ s.splitOnP p, ∀ c ∈ l, p c = false := by
  induction s with
  | nil => simp
  | cons a t ih =>
    intro l hl c hc
    rw [List.splitOnP_cons] at hl
    by_cases ha : p a = true
    · rw [if_pos ha] at hl
      rcases List.mem_cons.1 hl with h | h
      · subst h; simp at hc
      · exact ih l h c hc
    · rw [if_neg ha] at hl
      cases hsp : List.splitOnP p t with
      | nil => exact absurd hsp (List.splitOnP_ne_nil _ _)
      | cons x xs =>
        rw [hsp] at hl ih
        simp only [List.modifyHead_cons, List.mem_cons] at hl
        rcases hl with h | h
        · subst h
          rcases List.mem_cons.1 hc with h | h
          · subst h; simpa using ha
          · exact ih x (List.mem_cons_self _ _) c h
        · exact ih l (List.mem_cons_of_mem _ h) c hc

theorem sep_not_mem_of_mem_stringsSplit (s : GoString) (sep : Char) :
    ∀ l ∈ stringsSplit s sep, sep ∉ l := by
  intro l hl hmem
  have := not_mem_of_mem_splitOnP (· == sep) s l hl sep hmem
  simp at this

theorem stringsJoin_stringsSplit (s : GoString) (sep : Char) :
    stringsJoin (stringsSplit s sep) [sep] = s :=
  List.intercalate_splitOn s sep


/-! ## `filepath.Clean` on a rooted path -/


theorem rootedPath_nil : rootedPath [] = ['/'] := rfl

theorem rootedPath_snoc (segs : List GoString) (e : GoString) :
    rootedPath (segs ++ [e]) = (if segs = [] then ['/'] else rootedPath segs ++ ['/']) ++ e := by
  by_cases h : segs = []
  · subst h; simp [rootedPath, stringsJoin_singleton]
  · simp [rootedPath, stringsJoin_snoc segs e h, h]

theorem stringsJoin_length_pos (segs : List GoString) (h : segs ≠ [])
    (hne : ∀ s ∈ segs, s ≠ []) : 0 < (stringsJoin segs ['/']).length := by
  cases segs with
  | nil => exact absurd rfl h
  | cons a t =>
    have ha : a ≠ [] := hne a (List.mem_cons_self _ _)
    have : 0 < a.length := List.length_pos.2 ha
    cases t with
    | nil => simpa [stringsJoin, List.intercalate] using this
    | cons b t =>
      simp only [stringsJoin, List.intercalate, List.intersperse_cons₂, List.flatten_cons,
        List.length_append]
      omega

theorem rootedPath_length (segs : List GoString) (hne : ∀ s ∈ segs, s ≠ []) :
    (rootedPath segs).length = 1 ↔ segs = [] := by
  constructor
  · intro h
    by_contra hs
    have := stringsJoin_length_pos segs hs hne
    rw [rootedPath, List.length_cons] at h
    omega
  · intro h; subst h; rfl

theorem cleanBacktrack_eq (buf : GoString) (dotdot p : Nat)
    (hstop : ¬ (p > dotdot ∧ buf[p]? ≠ some '/')) :
    ∀ k, (∀ j, p < j → j ≤ p + k → j > dotdot ∧ buf[j]? ≠ some '/') →
      cleanBacktrack buf dotdot (p + k) = p := by
  intro k
  induction k with
  | zero =>
    intro _
    cases p with
    | zero => rfl
    | succ p => simp only [Nat.add_zero, cleanBacktrack]; rw [if_neg hstop]
  | succ k ih =>
    intro hgo
    have h1 := hgo (p + k + 1) (by omega) (by omega)
    show cleanBacktrack buf dotdot (p + k + 1) = p
    simp only [cleanBacktrack]
    rw [if_pos h1]
    exact ih (fun j hj hj2 => hgo j hj (by omega))

theorem cleanBacktrack_rootedPath (init : List GoString) (last : GoString)
    (hinit : ∀ s ∈ init, s ≠ []) (hlast : NormalElem last) :
    (rootedPath (init ++ [last])).take
      (cleanBacktrack (rootedPath (init ++ [last])) 1
        ((rootedPath (init ++ [last])).length - 1)) = rootedPath init := by
  obtain ⟨hne, hslash, _⟩ := hlast
  have hlen : 0 < last.length := List.length_pos.2 hne
  rw [rootedPath_snoc]
  by_cases h : init = []
  · subst h
    simp only [if_true, rootedPath_nil]
    have hk : (['/'] ++ last).length - 1 = 1 + (last.length - 1) := by
      simp; omega
    rw [hk, cleanBacktrack_eq _ 1 1 (by simp)]
    · simp
    · intro j hj1 hj2
      refine ⟨hj1, ?_⟩
      intro hget
      have hj : j - 1 < last.length := by omega
      have : (['/'] ++ last)[j]? = last[j - 1]? := by
        rw [List.getElem?_append_right (by simp; omega)]; simp
      rw [this] at hget
      exact hslash (List.getElem?_mem hget)
  · simp only [if_neg h]
    have hR : 1 ≤ (rootedPath init).length := by simp [rootedPath]
    have hk : (rootedPath init ++ ['/'] ++ last).length - 1
        = (rootedPath init).length + last.length := by
      simp
    rw [hk, cleanBacktrack_eq _ 1 (rootedPath init).length]
    · simp
    · intro hcon
      apply hcon.2
      rw [List.append_assoc, List.getElem?_append_right (le_refl _)]
      simp
    · intro j hj1 hj2
      refine ⟨by omega, ?_⟩
      intro hget
      have : (rootedPath init ++ ['/'] ++ last)[j]? = last[j - (rootedPath init).length - 1]? := by
        rw [List.getElem?_append_right (by simp; omega)]
        congr 1
        simp
        omega
      rw [this] at hget
      exact hslash (List.getElem?_mem hget)


theorem takeWhile_normalElem (c : Char) (tl : GoString) (hc : c ≠ '/')
    (h3 : ¬ (c = '.' ∧ tl.head? = some '.' ∧ (tl.tail = [] ∨ tl.tail.head? = some '/'))) :
    NormalElem ((c :: tl).takeWhile (· != '/')) := by
  refine ⟨?_, ?_, ?_⟩
  · simp [List.takeWhile_cons, hc]
  · intro hmem
    have := List.mem_takeWhile_imp hmem
    simp at this
  · intro heq
    apply h3
    simp only [List.takeWhile_cons, bne_iff_ne, ne_eq, hc, not_false_eq_true, decide_True,
      if_true, List.cons.injEq] at heq
    obtain ⟨hc2, h2⟩ := heq
    cases tl with
    | nil => simp at h2
    | cons d tl2 =>
      by_cases hd : d = '/'
      · simp [List.takeWhile_cons, hd] at h2
      · simp only [List.takeWhile_cons, bne_iff_ne, ne_eq, hd, not_false_eq_true, decide_True,
          if_true, List.cons.injEq] at h2
        obtain ⟨hd2, h4⟩ := h2
        refine ⟨hc2, by simp [hd2], ?_⟩
        cases tl2 with
        | nil => left; rfl
        | cons e tl3 =>
          right
          by_cases he : e = '/'
          · simp [he]
          · simp [List.takeWhile_cons, he] at h4

theorem cleanLoop_rooted (fuel : Nat) : ∀ (rest : GoString) (segs : List GoString),
    (∀ s ∈ segs, NormalElem s) →
    ∃ segs2, (∀ s ∈ segs2, NormalElem s) ∧
      cleanLoop true fuel rest (rootedPath segs) 1 = rootedPath segs2 := by
  induction fuel with
  | zero => intro rest segs h; exact ⟨segs, h, by simp [cleanLoop]⟩
  | succ fuel ih =>
    intro rest segs h
    have hne : ∀ s ∈ segs, s ≠ [] := fun s hs => (h s hs).1
    cases rest with
    | nil => exact ⟨segs, h, by simp [cleanLoop]⟩
    | cons c tl =>
      simp only [cleanLoop]
      by_cases h1 : c = '/'
      · rw [if_pos h1]; exact ih tl segs h
      rw [if_neg h1]
      by_cases h2 : c = '.' ∧ (tl = [] ∨ tl.head? = some '/')
      · rw [if_pos h2]; exact ih tl segs h
      rw [if_neg h2]
      by_cases h3 : c = '.' ∧ tl.head? = some '.' ∧ (tl.tail = [] ∨ tl.tail.head? = some '/')
      · rw [if_pos h3]
        by_cases h4 : (rootedPath segs).length > 1
        · rw [if_pos h4]
          have hs : segs ≠ [] := by
            intro hs
            have := (rootedPath_length segs hne).2 hs
            omega
          obtain ⟨init, last, rfl⟩ : ∃ init last, segs = init ++ [last] :=
            ⟨segs.dropLast, segs.getLast hs, (List.dropLast_append_getLast hs).symm⟩
          have hinit : ∀ s ∈ init, NormalElem s :=
            fun s hs => h s (List.mem_append_left _ hs)
          rw [cleanBacktrack_rootedPath init last (fun s hs => (hinit s hs).1)
            (h last (by simp))]
          exact ih tl.tail init hinit
        · rw [if_neg h4]
          simp only [Bool.not_true, Bool.false_eq_true, if_false]
          exact ih tl.tail segs h
      rw [if_neg h3]
      have hnorm := takeWhile_normalElem c tl h1 h3
      have hout : (if (true && (rootedPath segs).length != 1) ||
            (!true && (rootedPath segs).length != 0) then rootedPath segs ++ ['/']
          else rootedPath segs) ++ (c :: tl).takeWhile (· != '/')
          = rootedPath (segs ++ [(c :: tl).takeWhile (· != '/')]) := by
        rw [rootedPath_snoc]
        by_cases hs : segs = []
        · subst hs; simp [rootedPath_nil]
        · have : (rootedPath segs).length ≠ 1 := fun hl => hs ((rootedPath_length segs hne).1 hl)
          simp [hs, this]
      simp only [] at hout ⊢
      rw [hout]
      apply ih
      intro s hs
      rcases List.mem_append.1 hs with h5 | h5
      · exact h s h5
      · rw [List.mem_singleton] at h5; rw [h5]; exact hnorm

theorem filepathClean_rooted (t : GoString) :
    ∃ segs, (∀ s ∈ segs, NormalElem s) ∧ filepathClean ('/' :: t) = rootedPath segs := by
  obtain ⟨segs, hsegs, h⟩ := cleanLoop_rooted ('/' :: t).length t [] (by simp)
  refine ⟨segs, hsegs, ?_⟩
  rw [rootedPath_nil, List.length_cons] at h
  simp only [filepathClean, List.head?_cons, List.tail_cons]
  simp [h, rootedPath]


/-- More fuel than the length of the unread part never changes the result of the loop of
`Clean`: the fuel `len(path)` given by `filepathClean` is enough. -/
theorem cleanLoop_fuel (rooted : Bool) : ∀ (f1 f2 : Nat) (rest out : GoString) (dotdot : Nat),
    rest.length ≤ f1 → rest.length ≤ f2 →
      cleanLoop rooted f1 rest out dotdot = cleanLoop rooted f2 rest out dotdot := by
  intro f1
  induction f1 with
  | zero =>
    intro f2 rest out dotdot h1 _
    have : rest = [] := List.length_eq_zero.1 (Nat.le_zero.1 h1)
    subst this
    cases f2 <;> simp [cleanLoop]
  | succ f1 ih =>
    intro f2 rest out dotdot h1 h2
    cases rest with
    | nil => cases f2 <;> simp [cleanLoop]
    | cons c tl =>
      cases f2 with
      | zero => simp at h2
      | succ f2 =>
        have ht1 : tl.length ≤ f1 := by simpa using h1
        have ht2 : tl.length ≤ f2 := by simpa using h2
        have htt1 : tl.tail.length ≤ f1 := by simp; omega
        have htt2 : tl.tail.length ≤ f2 := by simp; omega
        have hd : c ≠ '/' → ((c :: tl).dropWhile (· != '/')).length ≤ tl.length := by
          intro hc
          rw [List.dropWhile_cons]
          simp only [bne_iff_ne, ne_eq, hc, not_false_eq_true, decide_True, if_true]
          exact (List.dropWhile_sublist _).length_le
        simp only [cleanLoop]
        by_cases hc : c = '/'
        · rw [if_pos hc, if_pos hc]; exact ih f2 tl out dotdot ht1 ht2
        rw [if_neg hc, if_neg hc]
        split_ifs
        all_goals first
          | exact ih _ _ _ _ ht1 ht2
          | exact ih _ _ _ _ htt1 htt2
          | exact ih _ _ _ _ (le_trans (hd hc) ht1) (le_trans (hd hc) ht2)

/-! ## Path resolution -/

theorem stringsSplit_rooted (t : GoString) :
    (stringsSplit ('/' :: t) '/').dropLast ≠ [] := by
  intro h
  have hne := stringsSplit_ne_nil ('/' :: t) '/'
  have hsp := List.dropLast_append_getLast hne
  rw [h, List.nil_append] at hsp
  have hj := stringsJoin_stringsSplit ('/' :: t) '/'
  rw [← hsp, stringsJoin_singleton] at hj
  have hmem := sep_not_mem_of_mem_stringsSplit ('/' :: t) '/' _ (List.getLast_mem hne)
  rw [hj] at hmem
  exact hmem (List.mem_cons_self _ _)

/-- The full path of the service file is the storage root followed by the validated path. -/
theorem constructFullPath_rooted (t : GoString) (vd : ValidatedData) :
    (NewServiceFile ⟨'/' :: t⟩ vd).constructFullPath = RootPath ++ '/' :: t := by
  have hne := stringsSplit_ne_nil ('/' :: t) '/'
  have hsp := List.dropLast_append_getLast hne
  have hj := stringsJoin_stringsSplit ('/' :: t) '/'
  rw [← hsp, stringsJoin_snoc _ _ (stringsSplit_rooted t)] at hj
  simp only [ServiceFile.constructFullPath, NewServiceFile, List.getLastD_eq_getLast?,
    List.getLast?_eq_getLast _ hne, Option.getD_some, List.append_assoc, List.singleton_append]
  rw [hj]

theorem stringsSplit_root (segs : List GoString) (h : ∀ s ∈ segs, NormalElem s) :
    stringsSplit (RootPath ++ rootedPath segs) '/'
      = RootPath :: (if segs = [] then [[]] else segs) := by
  have hroot : ∀ x ∈ RootPath, ¬ ((· == '/') x = true) := by decide
  unfold stringsSplit rootedPath List.splitOn
  rw [List.splitOnP_first _ _ hroot '/' (by simp)]
  congr 1
  by_cases hs : segs = []
  · subst hs; simp [stringsJoin, List.intercalate]
  · rw [if_neg hs]
    exact List.splitOn_intercalate segs '/' (fun l hl => (h l hl).2.1) hs

theorem validatePath_ok (path : GoString) (check : Bool) (vp : ValidatedPath)
    (h : validatePath path check = .ok vp) :
    ∃ t, path = '/' :: t ∧ vp.Path = filepathClean path := by
  unfold validatePath at h
  split_ifs at h with h1 h2
  all_goals
    cases path with
    | nil => exact absurd rfl h1
    | cons c t =>
      have hc : c = '/' := by
        simp [stringsHasPrefix, List.isPrefixOf] at h2
        exact h2.symm
      refine ⟨t, by rw [hc], ?_⟩
      dsimp only at h
      first
        | (cases h; rfl)
        | (split at h
           · cases h
           · cases h; rfl)


/-- C2 (path resolution). For every validated path that starts with a slash, the service
file built by `NewServiceFile` has as name the last slash-delimited segment of the path,
which holds no slash, and as directory the storage root `filesys` followed by the preceding
segments joined by slashes. The directory part, a slash and the name give back the path,
so that directory, slash and name together are `filesys` followed by the path. -/
theorem C2_path_resolution (vp : ValidatedPath) (vd : ValidatedData)
    (h : stringsHasPrefix vp.Path ['/'] = true) :
    (NewServiceFile vp vd).name = (stringsSplit vp.Path '/').getLastD [] ∧
    '/' ∉ (NewServiceFile vp vd).name ∧
    (NewServiceFile vp vd).path
      = "filesys".toList ++ stringsJoin (stringsSplit vp.Path '/').dropLast ['/'] ∧
    stringsJoin (stringsSplit vp.Path '/').dropLast ['/'] ++ '/' :: (NewServiceFile vp vd).name
      = vp.Path ∧
    (NewServiceFile vp vd).path ++ ['/'] ++ (NewServiceFile vp vd).name
      = "filesys".toList ++ vp.Path := by
  obtain ⟨p⟩ := vp
  cases p with
  | nil => simp [stringsHasPrefix, List.isPrefixOf] at h
  | cons c t =>
    have hc : c = '/' := by
      simp [stringsHasPrefix, List.isPrefixOf] at h
      exact h.symm
    subst hc
    have hne := stringsSplit_ne_nil ('/' :: t) '/'
    have hlast : (stringsSplit ('/' :: t) '/').getLastD []
        = (stringsSplit ('/' :: t) '/').getLast hne := by
      rw [List.getLastD_eq_getLast?, List.getLast?_eq_getLast _ hne, Option.getD_some]
    have hfull := constructFullPath_rooted t vd
    have hsp := List.dropLast_append_getLast hne
    have hj := stringsJoin_stringsSplit ('/' :: t) '/'
    rw [← hsp, stringsJoin_snoc _ _ (stringsSplit_rooted t)] at hj
    refine ⟨rfl, ?_, rfl, ?_, hfull⟩
    · show '/' ∉ (stringsSplit ('/' :: t) '/').getLastD []
      rw [hlast]
      exact sep_not_mem_of_mem_stringsSplit _ _ _ (List.getLast_mem hne)
    · show _ ++ '/' :: (stringsSplit ('/' :: t) '/').getLastD [] = _
      rw [hlast]
      exact hj

/-- The path `/a/b/c.txt` resolves to the directory `filesys/a/b` and the name `c.txt`. -/
theorem C2_path_resolution_witness :
    stringsHasPrefix "/a/b/c.txt".toList ['/'] = true ∧
    (NewServiceFile ⟨"/a/b/c.txt".toList⟩ ⟨"x".toList⟩).name = "c.txt".toList ∧
    (NewServiceFile ⟨"/a/b/c.txt".toList⟩ ⟨"x".toList⟩).path = "filesys/a/b".toList ∧
    (NewServiceFile ⟨"/a/b/c.txt".toList⟩ ⟨"x".toList⟩).path ++ ['/']
        ++ (NewServiceFile ⟨"/a/b/c.txt".toList⟩ ⟨"x".toList⟩).name
      = "filesys".toList ++ "/a/b/c.txt".toList :=
  ⟨by decide, by decide, by decide,
    (C2_path_resolution ⟨"/a/b/c.txt".toList⟩ ⟨"x".toList⟩ (by decide)).2.2.2.2⟩

/-- C1 (confinement). For every raw path that `validatePath` accepts with the filename check
on, the service file built from the validated path has a directory that begins with the
storage root `filesys`, and its full path, split at the slashes, has `filesys` as first
segment and no segment equal to `..`. -/
theorem C1_confinement (path : GoString) (vp : ValidatedPath) (vd : ValidatedData)
    (h : validatePath path true = .ok vp) :
    stringsHasPrefix (NewServiceFile vp vd).path "filesys".toList = true ∧
    (stringsSplit (NewServiceFile vp vd).constructFullPath '/').head? = some "filesys".toList ∧
    "..".toList ∉ stringsSplit (NewServiceFile vp vd).constructFullPath '/' := by
  obtain ⟨t, rfl, hvp⟩ := validatePath_ok _ _ _ h
  obtain ⟨segs, hsegs, hclean⟩ := filepathClean_rooted t
  obtain ⟨p⟩ := vp
  simp only at hvp
  subst hvp
  rw [hclean]
  have hfull : (NewServiceFile ⟨rootedPath segs⟩ vd).constructFullPath
      = RootPath ++ rootedPath segs := constructFullPath_rooted _ vd
  rw [hfull, stringsSplit_root segs hsegs]
  refine ⟨?_, rfl, ?_⟩
  · simp [stringsHasPrefix, NewServiceFile, RootPath]
  · intro hmem
    rcases List.mem_cons.1 hmem with h1 | h1
    · revert h1; decide
    · by_cases hs : segs = []
      · rw [if_pos hs] at h1; revert h1; decide
      · rw [if_neg hs] at h1
        exact (hsegs _ h1).2.2 rfl

/-- The raw path `/docs/../../etc/passwd.txt` is accepted, validated as `/etc/passwd.txt`, and lands
at `filesys/etc/passwd.txt`. -/
theorem C1_confinement_witness :
    validatePath "/docs/../../etc/passwd.txt".toList true = .ok ⟨"/etc/passwd.txt".toList⟩ ∧
    (NewServiceFile ⟨"/etc/passwd.txt".toList⟩ ⟨"x".toList⟩).constructFullPath
      = "filesys/etc/passwd.txt".toList ∧
    stringsHasPrefix (NewServiceFile ⟨"/etc/passwd.txt".toList⟩ ⟨"x".toList⟩).path
      "filesys".toList = true ∧
    (stringsSplit (NewServiceFile ⟨"/etc/passwd.txt".toList⟩ ⟨"x".toList⟩).constructFullPath
      '/').head? = some "filesys".toList ∧
    "..".toList ∉
      stringsSplit (NewServiceFile ⟨"/etc/passwd.txt".toList⟩ ⟨"x".toList⟩).constructFullPath '/' :=
  ⟨by rfl, by decide,
    C1_confinement "/docs/../../etc/passwd.txt".toList ⟨"/etc/passwd.txt".toList⟩ ⟨"x".toList⟩ (by rfl)⟩

/-- C4 (filename validation), at the input `/t.txt` with the filename check on: the last
segment `t.txt` ends in `.txt` and is not `.txt`, and `validatePath` rejects the path with
`errInternalInvalidFilename`, because `strings.TrimRight` takes `.txt` as a set of
characters and trims `t.txt` down to the empty string. -/
theorem C4_filename_validation_t_txt :
    validatePath "/t.txt".toList true = .error .errInternalInvalidFilename ∧
    (stringsSplit "/t.txt".toList '/').getLastD [] = "t.txt".toList ∧
    stringsHasSuffix "t.txt".toList ".txt".toList = true ∧
    "t.txt".toList ≠ ".txt".toList ∧
    stringsTrimRight "t.txt".toList ".txt".toList = [] :=
  ⟨by rfl, by decide, by decide, by decide, by decide⟩


/-! ## The file store: create, then read -/

/-- A successful `Create` leaves the data of the service file at its full path, and changes
nothing in what the system refuses. -/
theorem create_ok (sf : ServiceFile) (fs fs1 : FileSys) (h : sf.Create fs = .ok fs1) :
    fs1.nodes sf.constructFullPath = some (.file sf.data) ∧
    fs1.denied sf.constructFullPath = false := by
  unfold ServiceFile.Create ServiceFile.createOSPath ServiceFile.createOSFile
    ServiceFile.writeToOSFile at h
  cases hmk : osMkdirAll fs sf.path DefaultFolderPermission with
  | error e => rw [hmk] at h; cases h
  | ok fsA =>
    rw [hmk] at h
    have hden : fsA.denied = fs.denied := by
      unfold osMkdirAll at hmk
      split_ifs at hmk
      split at hmk
      · cases hmk
      · cases hmk; rfl
      · cases hmk; rfl
    simp only at h
    unfold osCreate at h
    by_cases hd : fsA.denied sf.constructFullPath = true
    · rw [if_pos hd] at h; cases h
    · rw [if_neg hd] at h
      cases hn : fsA.nodes sf.constructFullPath with
      | none =>
        rw [hn] at h
        simp [OSFile.Write, FileSys.store] at h
        subst h
        simpa using hd
      | some n =>
        rw [hn] at h
        cases n with
        | dir => cases h
        | file old =>
          simp [OSFile.Write, FileSys.store] at h
          subst h
          simpa using hd

/-- C3 (round trip with overwrite). Over a filesystem that maps full paths to contents:
when `Create` on the service file of a validated path and data succeeds, `GetFileData` on
any service file built from the same path returns exactly that data, whatever the
filesystem held before; and after a second successful `Create` at the same path it returns
the data of the second one only. -/
theorem C3_create_read_round_trip (fs fs1 : FileSys) (vp : ValidatedPath)
    (vd other : ValidatedData) (h : (NewServiceFile vp vd).Create fs = .ok fs1) :
    (NewServiceFile vp other).GetFileData fs1 = .ok vd.Data ∧
    ∀ (vd2 : ValidatedData) (fs2 : FileSys),
      (NewServiceFile vp vd2).Create fs1 = .ok fs2 →
        (NewServiceFile vp other).GetFileData fs2 = .ok vd2.Data := by
  have key : ∀ (d : ValidatedData) (a b : FileSys),
      (NewServiceFile vp d).Create a = .ok b →
        (NewServiceFile vp other).GetFileData b = .ok d.Data := by
    intro d a b hab
    obtain ⟨hnode, hden⟩ := create_ok _ _ _ hab
    have hsame : (NewServiceFile vp other).path ++ ['/'] ++ (NewServiceFile vp other).name
        = (NewServiceFile vp d).constructFullPath := rfl
    unfold ServiceFile.GetFileData ioutilReadFile
    rw [hsame, hden, hnode]
    rfl
  exact ⟨key vd fs fs1 h, fun vd2 fs2 h2 => key vd2 fs1 fs2 h2⟩

/-- On the empty filesystem, creating `/a/b.txt` with `old` and then with `new data`
succeeds both times, and reading the path afterwards gives `new data`. -/
theorem C3_create_read_round_trip_witness :
    ∃ fs1 fs2 : FileSys,
      (NewServiceFile ⟨"/a/b.txt".toList⟩ ⟨"old".toList⟩).Create emptyFileSys = .ok fs1 ∧
      (NewServiceFile ⟨"/a/b.txt".toList⟩ ⟨"new data".toList⟩).Create fs1 = .ok fs2 ∧
      (NewServiceFile ⟨"/a/b.txt".toList⟩ ⟨"Data".toList⟩).GetFileData fs1
        = .ok "old".toList ∧
      (NewServiceFile ⟨"/a/b.txt".toList⟩ ⟨"Data".toList⟩).GetFileData fs2
        = .ok "new data".toList :=
  ⟨_, _, rfl, rfl,
    (C3_create_read_round_trip emptyFileSys _ ⟨"/a/b.txt".toList⟩ ⟨"old".toList⟩
      ⟨"Data".toList⟩ rfl).1,
    (C3_create_read_round_trip emptyFileSys _ ⟨"/a/b.txt".toList⟩ ⟨"old".toList⟩
      ⟨"Data".toList⟩ rfl).2 ⟨"new data".toList⟩ _ rfl⟩

/-! ## `strings.Fields` and the word lengths -/

theorem modifyHead_self (l : List GoString) : l.modifyHead (fun x => x) = l := by
  cases l <;> rfl

theorem fieldsLoop_eq (s : GoString) : ∀ cur : Option GoString,
    (∀ w, cur = some w → w ≠ []) →
    fieldsLoop s cur
      = ((s.splitOnP unicodeIsSpace).modifyHead (cur.getD [] ++ ·)).filter
          (fun w => !w.isEmpty) := by
  induction s with
  | nil =>
    intro cur hcur
    cases cur with
    | none => simp [fieldsLoop]
    | some w =>
      have hw : w ≠ [] := hcur w rfl
      simp [fieldsLoop, hw]
  | cons c cs ih =>
    intro cur hcur
    rw [List.splitOnP_cons]
    by_cases hc : unicodeIsSpace c = true
    · rw [if_pos hc]
      have hnone := ih none (by simp)
      simp only [Option.getD_none, List.nil_append, modifyHead_self] at hnone
      cases cur with
      | none =>
        simp only [fieldsLoop, hc, if_true, hnone]
        simp
      | some w =>
        have hw : w ≠ [] := hcur w rfl
        simp only [fieldsLoop, hc, if_true, hnone]
        simp [hw]
    · rw [if_neg hc]
      have hc2 : unicodeIsSpace c = false := by simpa using hc
      cases cur with
      | none =>
        simp only [fieldsLoop, hc2, Bool.false_eq_true, if_false]
        rw [ih (some [c]) (by simp)]
        simp only [Option.getD_some, Option.getD_none, List.modifyHead_modifyHead]
        rfl
      | some w =>
        simp only [fieldsLoop, hc2, Bool.false_eq_true, if_false]
        rw [ih (some (w ++ [c])) (by simp)]
        simp only [Option.getD_some, List.modifyHead_modifyHead]
        congr 2
        funext x
        simp

/-- `strings.Fields` returns the whitespace-delimited words of the text. -/
theorem stringsFields_eq_wordsOf (s : GoString) : stringsFields s = wordsOf s := by
  unfold stringsFields wordsOf
  rw [fieldsLoop_eq s none (by simp)]
  congr 1
  cases List.splitOnP unicodeIsSpace s <;> simp [List.modifyHead]

theorem fieldsLoop_append_space (a b : GoString) (sp : Char) (hsp : unicodeIsSpace sp = true) :
    ∀ cur, fieldsLoop (a ++ sp :: b) cur = fieldsLoop a cur ++ fieldsLoop b none := by
  induction a with
  | nil => intro cur; cases cur <;> simp [fieldsLoop, hsp]
  | cons c cs ih =>
    intro cur
    cases cur with
    | none =>
      by_cases hc : unicodeIsSpace c = true
      · simp [fieldsLoop, hc, ih]
      · simp [fieldsLoop, hc, ih]
    | some w =>
      by_cases hc : unicodeIsSpace c = true
      · simp [fieldsLoop, hc, ih]
      · simp [fieldsLoop, hc, ih]

/-- Every word of a text is non-empty and holds no whitespace. -/
theorem wordsOf_mem (s w : GoString) (h : w ∈ wordsOf s) :
    w ≠ [] ∧ ∀ c ∈ w, unicodeIsSpace c = false := by
  unfold wordsOf at h
  rw [List.mem_filter] at h
  refine ⟨?_, not_mem_of_mem_splitOnP _ s w h.1⟩
  intro hw
  rw [hw] at h
  simp at h

/-- The words of a text, one after the other, are the text without its whitespace: no
character is lost and none is added. -/
theorem wordsOf_flatten (s : GoString) :
    (wordsOf s).flatten = s.filter (fun c => !unicodeIsSpace c) := by
  unfold wordsOf
  have key : ∀ t : GoString, (t.splitOnP unicodeIsSpace).flatten
      = t.filter (fun c => !unicodeIsSpace c) := by
    intro t
    induction t with
    | nil => simp
    | cons c cs ih =>
      rw [List.splitOnP_cons]
      by_cases hc : unicodeIsSpace c = true
      · simp [hc, ih]
      · rw [if_neg hc]
        cases hsp : List.splitOnP unicodeIsSpace cs with
        | nil => exact absurd hsp (List.splitOnP_ne_nil _ _)
        | cons x xs =>
          rw [hsp] at ih
          simp only [List.modifyHead_cons, List.flatten_cons, List.cons_append] at ih ⊢
          rw [ih]
          simp [hc]
  rw [← key s]
  generalize List.splitOnP unicodeIsSpace s = l
  induction l with
  | nil => simp
  | cons x xs ih =>
    by_cases hx : x = []
    · simp [List.filter_cons, hx, ih]
    · have : x.isEmpty = false := by cases x <;> simp at hx ⊢
      simp [List.filter_cons, this, ih]

theorem len_of_ascii (w : GoString) (h : ∀ c ∈ w, c.toNat < 128) : len w = w.length := by
  induction w with
  | nil => rfl
  | cons c cs ih =>
    have hc : c.toNat < 128 := h c (List.mem_cons_self _ _)
    have h1 : c.utf8Size = 1 := by
      have hv : c.val ≤ 127 := by
        rw [UInt32.le_def]
        have : c.val.toNat = c.toNat := rfl
        show c.val.val ≤ (127 : UInt32).val
        have h2 : ((127 : UInt32).val : Nat) = 127 := rfl
        rw [Fin.le_def, h2]
        show c.toNat ≤ 127
        omega
      simp [Char.utf8Size, hv]
    have := ih (fun d hd => h d (List.mem_cons_of_mem _ hd))
    simp only [len, List.map_cons, List.sum_cons, List.length_cons] at this ⊢
    omega

/-! ## The loop of `GetStats` in closed form -/

theorem len_eq_zero (data : GoString) : len data = 0 ↔ data = [] := by
  constructor
  · intro h
    cases data with
    | nil => rfl
    | cons c cs =>
      have : 0 < c.utf8Size := Char.utf8Size_pos c
      simp only [len, List.map_cons, List.sum_cons] at h
      omega
  · intro h; subst h; rfl

theorem len_pos (data : GoString) (h : data ≠ []) : 0 < len data :=
  Nat.pos_of_ne_zero (fun h0 => h ((len_eq_zero data).1 h0))

theorem findAllAlphanumeric_length (data : GoString) :
    (findAllAlphanumeric data).length = alphanumCount data := by
  simp [findAllAlphanumeric, alphanumCount, List.countP_eq_length_filter]

theorem getAlphanumCharCount_eq {K : Type} [Field K] (s : Stats K) (filename data : GoString) :
    s.getAlphanumCharCount filename data =
      { s with
        AlphanumericCharsPercentage := ratioMap s.AlphanumericCharsPercentage [(filename, data)]
        internal :=
          { s.internal with
            alphanumericCharsCountPerFile :=
              s.internal.alphanumericCharsCountPerFile ++ alphanumCounts [(filename, data)] } } := by
  unfold Stats.getAlphanumCharCount
  simp only [findAllAlphanumeric_length, ratioMap, alphanumCounts, List.foldl_cons,
    List.foldl_nil]
  by_cases h0 : len data = 0
  · have hd : data = [] := (len_eq_zero data).1 h0
    subst hd
    simp [alphanumCount, len]
  · rw [if_neg h0]
    by_cases hc : alphanumCount data = 0
    · simp [hc]
    · simp [hc, List.filter_cons]

theorem getStatsLoop_eq {K : Type} [Field K] (os : Snapshot) (dir : GoString) :
    ∀ (fi : List FileInfo) (s : Stats K) (buf : GoString),
      getStatsLoop os dir fi (s, buf) =
        match regularFiles os dir fi with
        | .error err => .error err
        | .ok files =>
          .ok
            ({ FileCount := s.FileCount + files.length
               AlphanumericCharsPercentage := ratioMap s.AlphanumericCharsPercentage files
               AlphanumericCharsStdDev := s.AlphanumericCharsStdDev
               WordLenAvg := s.WordLenAvg
               WordLenStdDev := s.WordLenStdDev
               BytesTotal := s.BytesTotal + (fi.map (·.Size)).sum
               internal :=
                 { alphanumericCharsCountPerFile :=
                     s.internal.alphanumericCharsCountPerFile ++ alphanumCounts files
                   wordlengths := s.internal.wordlengths } },
              buf ++ combinedBuffer (files.map (·.2))) := by
  intro fi
  induction fi with
  | nil =>
    intro s buf
    simp [getStatsLoop, regularFiles, ratioMap, alphanumCounts, combinedBuffer]
  | cons f rest ih =>
    intro s buf
    simp only [getStatsLoop, regularFiles]
    by_cases hdir : f.IsDir = true
    · simp only [hdir, Bool.not_true, Bool.false_eq_true, if_false, if_true]
      rw [ih]
      cases regularFiles os dir rest with
      | error e => rfl
      | ok files =>
        simp only [List.map_cons, List.sum_cons, add_assoc]
    · have hdir2 : f.IsDir = false := by simpa using hdir
      simp only [hdir2, Bool.not_false, if_true, Bool.false_eq_true, if_false]
      cases os.ReadFile (dir ++ ['/'] ++ f.Name) with
      | error e => rfl
      | ok data =>
        simp only []
        rw [ih, getAlphanumCharCount_eq]
        cases regularFiles os dir rest with
        | error e => rfl
        | ok files =>
          simp only [List.map_cons, List.sum_cons, List.length_cons, add_assoc,
            Except.ok.injEq, Prod.mk.injEq, Stats.mk.injEq, stats.mk.injEq]
          refine ⟨⟨?_, ?_, trivial, trivial, trivial, trivial, ?_, trivial⟩, ?_⟩
          · omega
          · simp [ratioMap]
          · simp [alphanumCounts, List.filter_cons]
            split_ifs <;> simp
          · simp [combinedBuffer]

/-! ## Average and standard deviation -/

theorem foldl_add_cast {K : Type} [Field K] (collection : List Int) (a : K) :
    collection.foldl (fun (sum : K) (n : Int) => sum + (n : K)) a
      = a + ((collection.sum : Int) : K) := by
  induction collection generalizing a with
  | nil => simp
  | cons x xs ih =>
    simp only [List.foldl_cons, List.sum_cons, Int.cast_add]
    rw [ih]
    ring

theorem foldl_diff_sq {K : Type} [Field K] (avg : K) (collection : List Int) (a b : K) :
    (collection.foldl
        (fun (acc : K × K) (n : Int) => (acc.1 + (n : K), acc.2 + ((n : K) - avg) ^ 2))
        (a, b)).2
      = b + (collection.map (fun (x : Int) => ((x : K) - avg) ^ 2)).sum := by
  induction collection generalizing a b with
  | nil => simp
  | cons x xs ih =>
    simp only [List.foldl_cons, List.map_cons, List.sum_cons]
    rw [ih]
    ring

/-- `calcAvgAndStdDev` in closed form, over any field of characteristic zero. -/
theorem calcAvgAndStdDev_eq {K : Type} [Field K] [DecidableEq K] [CharZero K]
    (sqrt : K → K) (collection : List Int) :
    calcAvgAndStdDev sqrt collection =
      if collection.sum = 0 then (-1, -1)
      else (populationAvg collection, populationStdDev sqrt collection) := by
  unfold calcAvgAndStdDev
  simp only [foldl_add_cast, zero_add, foldl_diff_sq, Int.cast_eq_zero]
  by_cases h : collection.sum = 0
  · rw [if_pos h, if_pos h]
  · rw [if_neg h, if_neg h]
    rfl

/-- C5. Over exact real arithmetic `calcAvgAndStdDev` is the population reference: a list
of integers whose sum is zero (the empty list is one) gives the pair of sentinels
`(-1, -1)`; any other list of length `n` gives the average `sum / n` and the standard
deviation `sqrt (sum of (x - avg)^2 / n)`, the divisor being `n` and not `n - 1`.
The list `[3, 2, 2]` has the average `7 / 3`. -/
theorem C5_calcAvgAndStdDev_population :
    (∀ collection : List Int, collection.sum = 0 →
      calcAvgAndStdDev Real.sqrt collection = (-1, -1)) ∧
    calcAvgAndStdDev Real.sqrt [] = (-1, -1) ∧
    (∀ collection : List Int, collection.sum ≠ 0 →
      calcAvgAndStdDev Real.sqrt collection =
        ((collection.sum : ℝ) / (collection.length : ℝ),
          Real.sqrt
            ((collection.map
                (fun (x : Int) =>
                  ((x : ℝ) - (collection.sum : ℝ) / (collection.length : ℝ)) ^ 2)).sum
              / (collection.length : ℝ)))) ∧
    (calcAvgAndStdDev Real.sqrt [3, 2, 2]).1 = 7 / 3 := by
  refine ⟨?_, ?_, ?_, ?_⟩
  · intro collection h
    rw [calcAvgAndStdDev_eq, if_pos h]
  · rw [calcAvgAndStdDev_eq, if_pos (by rfl)]
  · intro collection h
    rw [calcAvgAndStdDev_eq, if_neg h]
    rfl
  · rw [calcAvgAndStdDev_eq, if_neg (by decide)]
    simp only [populationAvg]
    norm_num

/-! ## The alphanumeric ratio of one file -/

/-- C6. Let `c` be the number of characters of the content in the ASCII class
`[A-Za-z0-9]`. When the content is not empty and `c > 0`, `getAlphanumCharCount` sets the
entry of the filename in `AlphanumericCharsPercentage` to `c / len(content)`, leaves every
other entry as it was and appends `c` to `alphanumericCharsCountPerFile`; no other field
changes. When the content is empty or `c = 0` the whole struct is left as it was. -/
theorem C6_getAlphanumCharCount {K : Type} [Field K] (s : Stats K)
    (filename content : GoString) :
    (content ≠ [] ∧ 0 < alphanumCount content →
      (s.getAlphanumCharCount filename content).AlphanumericCharsPercentage filename
          = some ((alphanumCount content : K) / (len content : K)) ∧
        (∀ other, other ≠ filename →
          (s.getAlphanumCharCount filename content).AlphanumericCharsPercentage other
            = s.AlphanumericCharsPercentage other) ∧
        (s.getAlphanumCharCount filename content).internal.alphanumericCharsCountPerFile
          = s.internal.alphanumericCharsCountPerFile ++ [(alphanumCount content : Int)] ∧
        (s.getAlphanumCharCount filename content).internal.wordlengths
          = s.internal.wordlengths ∧
        (s.getAlphanumCharCount filename content).FileCount = s.FileCount ∧
        (s.getAlphanumCharCount filename content).BytesTotal = s.BytesTotal) ∧
    (content = [] ∨ alphanumCount content = 0 →
      s.getAlphanumCharCount filename content = s) := by
  constructor
  · rintro ⟨hne, hpos⟩
    have h0 : len content ≠ 0 := fun h => hne ((len_eq_zero content).1 h)
    have hc : alphanumCount content ≠ 0 := by omega
    unfold Stats.getAlphanumCharCount
    simp only [findAllAlphanumeric_length, h0, hc, if_false]
    refine ⟨by simp, ?_, by simp⟩
    intro other hother
    simp [hother]
  · intro h
    unfold Stats.getAlphanumCharCount
    rcases h with h | h
    · subst h; simp [len]
    · simp [findAllAlphanumeric_length, h]

/-- The content `ab1` of `a.txt` records `3 / 3 = 1`, and then the content `cd 22` of
`b.txt` records `4 / 5`; the counts `3` and `4` are appended in this order. -/
theorem C6_getAlphanumCharCount_witness :
    alphanumCount "ab1".toList = 3 ∧ len "ab1".toList = 3 ∧
    alphanumCount "cd 22".toList = 4 ∧ len "cd 22".toList = 5 ∧
    ((newStats ℚ).getAlphanumCharCount "a.txt".toList "ab1".toList).AlphanumericCharsPercentage
      "a.txt".toList = some 1 ∧
    (((newStats ℚ).getAlphanumCharCount "a.txt".toList "ab1".toList).getAlphanumCharCount
      "b.txt".toList "cd 22".toList).AlphanumericCharsPercentage "b.txt".toList
        = some (4 / 5) ∧
    (((newStats ℚ).getAlphanumCharCount "a.txt".toList "ab1".toList).getAlphanumCharCount
      "b.txt".toList "cd 22".toList).AlphanumericCharsPercentage "a.txt".toList = some 1 ∧
    (((newStats ℚ).getAlphanumCharCount "a.txt".toList "ab1".toList).getAlphanumCharCount
      "b.txt".toList "cd 22".toList).internal.alphanumericCharsCountPerFile = [3, 4] ∧
    (newStats ℚ).getAlphanumCharCount "e.txt".toList [] = newStats ℚ ∧
    (newStats ℚ).getAlphanumCharCount "p.txt".toList "?! ".toList = newStats ℚ := by
  have ha := (C6_getAlphanumCharCount (newStats ℚ) "a.txt".toList "ab1".toList).1
    ⟨by decide, by decide⟩
  have hb := (C6_getAlphanumCharCount
    ((newStats ℚ).getAlphanumCharCount "a.txt".toList "ab1".toList)
    "b.txt".toList "cd 22".toList).1 ⟨by decide, by decide⟩
  have h3 : alphanumCount "ab1".toList = 3 := by decide
  have h4 : alphanumCount "cd 22".toList = 4 := by decide
  have l3 : len "ab1".toList = 3 := by decide
  have l5 : len "cd 22".toList = 5 := by decide
  refine ⟨h3, l3, h4, l5, ?_, ?_, ?_, ?_, ?_, ?_⟩
  · rw [ha.1, h3, l3]; norm_num
  · rw [hb.1, h4, l5]; norm_num
  · rw [hb.2.1 _ (by decide), ha.1, h3, l3]; norm_num
  · rw [hb.2.2.1, ha.2.2.1, h3, h4]; rfl
  · exact (C6_getAlphanumCharCount (newStats ℚ) "e.txt".toList []).2 (Or.inl rfl)
  · exact (C6_getAlphanumCharCount (newStats ℚ) "p.txt".toList "?! ".toList).2
      (Or.inr (by decide))

/-! ## `GetStats` in closed form -/

theorem getWordCount_eq {K : Type} (s : Stats K) (data : GoString) :
    s.getWordCount data =
      { s with
        internal :=
          { s.internal with
            wordlengths :=
              s.internal.wordlengths ++ (stringsFields data).map (fun w => (len w : Int)) } } := by
  unfold Stats.getWordCount
  generalize stringsFields data = words
  induction words generalizing s with
  | nil => simp
  | cons w ws ih =>
    simp only [List.foldl_cons]
    rw [ih]
    simp

theorem stringsFields_append_newline (a b : GoString) :
    stringsFields (a ++ ['\n'] ++ b) = stringsFields a ++ stringsFields b := by
  unfold stringsFields
  rw [List.append_assoc, List.singleton_append]
  exact fieldsLoop_append_space a b '\n' (by decide) none

theorem stringsFields_combinedBuffer (contents : List GoString) :
    stringsFields (combinedBuffer contents) = (contents.map stringsFields).flatten := by
  induction contents with
  | nil => rfl
  | cons c cs ih =>
    have : combinedBuffer (c :: cs) = c ++ ['\n'] ++ combinedBuffer cs := by
      simp [combinedBuffer]
    rw [this, stringsFields_append_newline, ih]
    simp

theorem wordsOf_combinedBuffer (contents : List GoString) :
    wordsOf (combinedBuffer contents) = (contents.map wordsOf).flatten := by
  rw [← stringsFields_eq_wordsOf, stringsFields_combinedBuffer]
  congr 1
  exact List.map_congr_left (fun c _ => stringsFields_eq_wordsOf c)

theorem GetStats_eq {K : Type} [Field K] [DecidableEq K] (sqrt : K → K) (os : Snapshot)
    (path : GoString) :
    GetStats sqrt os path =
      match os.ReadDir (statsDir path) with
      | .error err => .error err
      | .ok fi =>
        match regularFiles os (statsDir path) fi with
        | .error err => .error err
        | .ok files => .ok (statsReport sqrt fi files) := by
  unfold GetStats statsDir
  simp only []
  generalize (if stringsHasSuffix (RootPath ++ path) ['/'] = true then
    stringsTrimRight (RootPath ++ path) ['/'] else RootPath ++ path) = dir
  cases os.ReadDir dir with
  | error e => rfl
  | ok fi =>
    simp only []
    rw [getStatsLoop_eq]
    cases regularFiles os dir fi with
    | error e => rfl
    | ok files =>
      simp only [getWordCount_eq, List.nil_append, newStats, zero_add, statsReport,
        stringsFields_eq_wordsOf, wordsOf_combinedBuffer, List.map_map]
      rfl

theorem regularFiles_filter (os : Snapshot) (dir : GoString) (fi : List FileInfo) :
    regularFiles os dir (fi.filter (fun f => !f.IsDir)) = regularFiles os dir fi := by
  induction fi with
  | nil => rfl
  | cons f rest ih =>
    by_cases hdir : f.IsDir = true
    · simp [List.filter_cons, regularFiles, hdir, ih]
    · have hdir2 : f.IsDir = false := by simpa using hdir
      simp [List.filter_cons, regularFiles, hdir2, ih]

theorem regularFiles_length (os : Snapshot) (dir : GoString) :
    ∀ (fi : List FileInfo) (files : List (GoString × GoString)),
      regularFiles os dir fi = .ok files →
        files.length = (fi.filter (fun f => !f.IsDir)).length := by
  intro fi
  induction fi with
  | nil => intro files h; cases h; rfl
  | cons f rest ih =>
    intro files h
    by_cases hdir : f.IsDir = true
    · simp only [regularFiles, hdir, if_true] at h
      simp [List.filter_cons, hdir, ih files h]
    · have hdir2 : f.IsDir = false := by simpa using hdir
      simp only [regularFiles, hdir2, Bool.false_eq_true, if_false] at h
      cases hr : os.ReadFile (dir ++ ['/'] ++ f.Name) with
      | error e => rw [hr] at h; cases h
      | ok data =>
        rw [hr] at h
        cases hrest : regularFiles os dir rest with
        | error e => rw [hrest] at h; cases h
        | ok files2 =>
          rw [hrest] at h
          cases h
          simp [List.filter_cons, hdir2, ih files2 hrest]

theorem regularFiles_mem (os : Snapshot) (dir : GoString) :
    ∀ (fi : List FileInfo) (files : List (GoString × GoString)),
      regularFiles os dir fi = .ok files →
        (∀ nd ∈ files, ∃ f ∈ fi, f.IsDir = false ∧ f.Name = nd.1 ∧
          os.ReadFile (dir ++ ['/'] ++ f.Name) = .ok nd.2) ∧
        (∀ f ∈ fi, f.IsDir = false →
          ∃ data, os.ReadFile (dir ++ ['/'] ++ f.Name) = .ok data ∧ (f.Name, data) ∈ files) := by
  intro fi
  induction fi with
  | nil => intro files h; cases h; simp
  | cons f rest ih =>
    intro files h
    by_cases hdir : f.IsDir = true
    · simp only [regularFiles, hdir, if_true] at h
      obtain ⟨h1, h2⟩ := ih files h
      constructor
      · intro nd hnd
        obtain ⟨g, hg, hg2⟩ := h1 nd hnd
        exact ⟨g, List.mem_cons_of_mem _ hg, hg2⟩
      · intro g hg hgd
        rcases List.mem_cons.1 hg with hgf | hgr
        · subst hgf; rw [hdir] at hgd; cases hgd
        · exact h2 g hgr hgd
    · have hdir2 : f.IsDir = false := by simpa using hdir
      simp only [regularFiles, hdir2, Bool.false_eq_true, if_false] at h
      cases hr : os.ReadFile (dir ++ ['/'] ++ f.Name) with
      | error e => rw [hr] at h; cases h
      | ok data =>
        rw [hr] at h
        cases hrest : regularFiles os dir rest with
        | error e => rw [hrest] at h; cases h
        | ok files2 =>
          rw [hrest] at h
          cases h
          obtain ⟨h1, h2⟩ := ih files2 hrest
          constructor
          · intro nd hnd
            rcases List.mem_cons.1 hnd with hnd1 | hnd2
            · subst hnd1
              exact ⟨f, List.mem_cons_self _ _, hdir2, rfl, hr⟩
            · obtain ⟨g, hg, hg2⟩ := h1 nd hnd2
              exact ⟨g, List.mem_cons_of_mem _ hg, hg2⟩
          · intro g hg hgd
            rcases List.mem_cons.1 hg with hgf | hgr
            · subst hgf
              exact ⟨data, hr, List.mem_cons_self _ _⟩
            · obtain ⟨d, hd1, hd2⟩ := h2 g hgr hgd
              exact ⟨d, hd1, List.mem_cons_of_mem _ hd2⟩

/-- A successful `GetStats` read the listing and every regular file of it, and its report
is `statsReport`. -/
theorem GetStats_ok {K : Type} [Field K] [DecidableEq K] (sqrt : K → K) (os : Snapshot)
    (path : GoString) (s : Stats K) (fi : List FileInfo)
    (h : GetStats sqrt os path = .ok s) (hfi : os.ReadDir (statsDir path) = .ok fi) :
    ∃ files, regularFiles os (statsDir path) fi = .ok files ∧ s = statsReport sqrt fi files := by
  rw [GetStats_eq, hfi] at h
  simp only [] at h
  cases hr : regularFiles os (statsDir path) fi with
  | error e => rw [hr] at h; cases h
  | ok files =>
    rw [hr] at h
    cases h
    exact ⟨files, rfl, rfl⟩

/-! ## The counts of `GetStats` -/

theorem regularFiles_withoutDirs (os : Snapshot) (dir : GoString) (fi : List FileInfo) :
    regularFiles (withoutDirs os) dir fi = regularFiles os dir fi := by
  induction fi with
  | nil => rfl
  | cons f rest ih =>
    simp only [regularFiles, ih]
    rfl

/-- C7. For every directory listing on which `GetStats` succeeds, `FileCount` is the
number of entries that are not directories and `BytesTotal` is the sum of the reported
sizes of all entries, directories included. The directories contribute nothing else: on
the same listing without its directories `GetStats` returns the same report, but for
`BytesTotal`, which is then the sum of the sizes of the regular files. -/
theorem C7_getStats_counts {K : Type} [Field K] [DecidableEq K] (sqrt : K → K)
    (os : Snapshot) (path : GoString) (s : Stats K) (fi : List FileInfo)
    (h : GetStats sqrt os path = .ok s) (hfi : os.ReadDir (statsDir path) = .ok fi) :
    s.FileCount = ((fi.filter (fun f => !f.IsDir)).length : Int) ∧
    s.BytesTotal = (fi.map (·.Size)).sum ∧
    GetStats sqrt (withoutDirs os) path
      = .ok { s with BytesTotal := ((fi.filter (fun f => !f.IsDir)).map (·.Size)).sum } := by
  obtain ⟨files, hfiles, rfl⟩ := GetStats_ok sqrt os path s fi h hfi
  refine ⟨?_, rfl, ?_⟩
  · show ((files.length : Int)) = _
    rw [regularFiles_length os _ fi files hfiles]
  · rw [GetStats_eq]
    have hdir : (withoutDirs os).ReadDir (statsDir path)
        = .ok (fi.filter (fun f => !f.IsDir)) := by
      simp [withoutDirs, hfi]
    rw [hdir]
    simp only []
    rw [regularFiles_withoutDirs, regularFiles_filter, hfiles]
    rfl

/-- The directory with `a.txt` = `ab1` and `b.txt` = `cd 22` gives a file count of 2 and
a byte total of 8. -/
theorem C7_getStats_counts_witness :
    ∃ s : Stats ℝ, GetStats Real.sqrt exampleDir ['/'] = .ok s ∧
      exampleDir.ReadDir (statsDir ['/']) = .ok exampleListing ∧
      s.FileCount = 2 ∧ s.BytesTotal = 8 := by
  obtain ⟨s, hs⟩ : ∃ s : Stats ℝ, GetStats Real.sqrt exampleDir ['/'] = .ok s := ⟨_, rfl⟩
  have hfi : exampleDir.ReadDir (statsDir ['/']) = .ok exampleListing := by rfl
  have h := C7_getStats_counts Real.sqrt exampleDir ['/'] s exampleListing hs hfi
  exact ⟨s, hs, hfi, by rw [h.1]; rfl, by rw [h.2.1]; rfl⟩

/-! ## The sentinel `-1` -/

/-- On a list of positive integers `calcAvgAndStdDev` gives the sentinels exactly for the
empty list; otherwise the average is positive and the standard deviation is not negative. -/
theorem calcAvgAndStdDev_pos (l : List Int) (hpos : ∀ x ∈ l, 0 < x) :
    (l = [] → calcAvgAndStdDev Real.sqrt l = (-1, -1)) ∧
    (l ≠ [] → 0 < (calcAvgAndStdDev Real.sqrt l).1 ∧ 0 ≤ (calcAvgAndStdDev Real.sqrt l).2) := by
  constructor
  · intro h
    subst h
    rw [calcAvgAndStdDev_eq, if_pos (by rfl)]
  · intro h
    have hsum : 0 < l.sum := List.sum_pos l hpos h
    have hlen : 0 < l.length := List.length_pos.2 h
    rw [calcAvgAndStdDev_eq, if_neg (by omega)]
    refine ⟨?_, Real.sqrt_nonneg _⟩
    show 0 < ((l.sum : Int) : ℝ) / (l.length : ℝ)
    exact div_pos (by exact_mod_cast hsum) (by exact_mod_cast hlen)

theorem calcAvgAndStdDev_sentinel (l : List Int) (hpos : ∀ x ∈ l, 0 < x) :
    ((calcAvgAndStdDev Real.sqrt l).1 = -1 ↔ l = []) ∧
    ((calcAvgAndStdDev Real.sqrt l).2 = -1 ↔ l = []) := by
  obtain ⟨h1, h2⟩ := calcAvgAndStdDev_pos l hpos
  constructor
  · constructor
    · intro h
      by_contra hne
      have := (h2 hne).1
      rw [h] at this
      norm_num at this
    · intro h; rw [h1 h]
  · constructor
    · intro h
      by_contra hne
      have := (h2 hne).2
      rw [h] at this
      norm_num at this
    · intro h; rw [h1 h]

theorem wordLengths_pos (files : List (GoString × GoString)) :
    ∀ x ∈ ((files.map (fun nd => wordsOf nd.2)).flatten).map (fun w => (len w : Int)),
      0 < x := by
  intro x hx
  obtain ⟨w, hw, rfl⟩ := List.mem_map.1 hx
  obtain ⟨ws, hws, hwmem⟩ := List.mem_flatten.1 hw
  obtain ⟨nd, _, rfl⟩ := List.mem_map.1 hws
  have := len_pos w (wordsOf_mem _ w hwmem).1
  exact_mod_cast this

theorem alphanumCounts_pos (files : List (GoString × GoString)) :
    ∀ x ∈ alphanumCounts files, 0 < x := by
  intro x hx
  obtain ⟨nd, hnd, rfl⟩ := List.mem_map.1 hx
  have h0 : alphanumCount nd.2 ≠ 0 := by simpa using (List.mem_filter.1 hnd).2
  exact_mod_cast Nat.pos_of_ne_zero h0

theorem wordLengths_eq_nil (os : Snapshot) (dir : GoString) (fi : List FileInfo)
    (files : List (GoString × GoString)) (hfiles : regularFiles os dir fi = .ok files) :
    ((files.map (fun nd => wordsOf nd.2)).flatten).map (fun w => (len w : Int)) = [] ↔
      NoWord os dir fi := by
  obtain ⟨h1, h2⟩ := regularFiles_mem os dir fi files hfiles
  rw [List.map_eq_nil_iff, List.flatten_eq_nil_iff]
  constructor
  · intro h f hf hdir data hdata
    obtain ⟨d, hd, hmem⟩ := h2 f hf hdir
    rw [hdata] at hd
    cases hd
    exact h _ (List.mem_map.2 ⟨(f.Name, data), hmem, rfl⟩)
  · intro h ws hws
    obtain ⟨nd, hnd, rfl⟩ := List.mem_map.1 hws
    obtain ⟨f, hf, hdir, _, hread⟩ := h1 nd hnd
    exact h f hf hdir nd.2 hread

theorem alphanumCounts_eq_nil (os : Snapshot) (dir : GoString) (fi : List FileInfo)
    (files : List (GoString × GoString)) (hfiles : regularFiles os dir fi = .ok files) :
    alphanumCounts files = [] ↔ NoAlphanumeric os dir fi := by
  obtain ⟨h1, h2⟩ := regularFiles_mem os dir fi files hfiles
  unfold alphanumCounts
  rw [List.map_eq_nil_iff, List.filter_eq_nil_iff]
  constructor
  · intro h f hf hdir data hdata
    obtain ⟨d, hd, hmem⟩ := h2 f hf hdir
    rw [hdata] at hd
    cases hd
    simpa using h _ hmem
  · intro h nd hnd
    obtain ⟨f, hf, hdir, _, hread⟩ := h1 nd hnd
    simpa using h f hf hdir nd.2 hread

theorem ratioMap_none {K : Type} [Field K] (files : List (GoString × GoString))
    (h : ∀ nd ∈ files, alphanumCount nd.2 = 0) (m : GoString → Option K) :
    ratioMap m files = m := by
  induction files generalizing m with
  | nil => rfl
  | cons nd rest ih =>
    have h0 := h nd (List.mem_cons_self _ _)
    simp only [ratioMap, List.foldl_cons, h0, if_true]
    exact ih (fun x hx => h x (List.mem_cons_of_mem _ hx)) m

/-- C8. For every directory listing on which `GetStats` succeeds, over exact real
arithmetic: the word-length standard deviation is `-1` exactly when no regular file holds
a whitespace-delimited word, and so is the word-length average; the alphanumeric standard
deviation is `-1` exactly when no regular file holds an ASCII alphanumeric character, and
then the ratio map is empty. In every other case the standard deviation is at least `0`
and the word-length average is above `0`. -/
theorem C8_sentinel_means_no_data (os : Snapshot) (path : GoString) (s : Stats ℝ)
    (fi : List FileInfo) (h : GetStats Real.sqrt os path = .ok s)
    (hfi : os.ReadDir (statsDir path) = .ok fi) :
    (s.WordLenStdDev = -1 ↔ NoWord os (statsDir path) fi) ∧
    (s.WordLenAvg = -1 ↔ NoWord os (statsDir path) fi) ∧
    (s.AlphanumericCharsStdDev = -1 ↔ NoAlphanumeric os (statsDir path) fi) ∧
    (¬ NoWord os (statsDir path) fi → 0 ≤ s.WordLenStdDev ∧ 0 < s.WordLenAvg) ∧
    (¬ NoAlphanumeric os (statsDir path) fi → 0 ≤ s.AlphanumericCharsStdDev) ∧
    (NoAlphanumeric os (statsDir path) fi → ∀ name, s.AlphanumericCharsPercentage name = none) := by
  obtain ⟨files, hfiles, rfl⟩ := GetStats_ok Real.sqrt os path s fi h hfi
  have hw := wordLengths_eq_nil os _ fi files hfiles
  have ha := alphanumCounts_eq_nil os _ fi files hfiles
  have hwpos := wordLengths_pos files
  have hapos := alphanumCounts_pos files
  obtain ⟨hs1, hs2⟩ := calcAvgAndStdDev_sentinel _ hwpos
  obtain ⟨_, ha2⟩ := calcAvgAndStdDev_sentinel _ hapos
  refine ⟨?_, ?_, ?_, ?_, ?_, ?_⟩
  · exact hs2.trans hw
  · exact hs1.trans hw
  · exact ha2.trans ha
  · intro hno
    have hne : _ ≠ [] := fun hnil => hno (hw.1 hnil)
    have := (calcAvgAndStdDev_pos _ hwpos).2 hne
    exact ⟨this.2, this.1⟩
  · intro hno
    have hne : alphanumCounts files ≠ [] := fun hnil => hno (ha.1 hnil)
    exact ((calcAvgAndStdDev_pos _ hapos).2 hne).2
  · intro hno name
    have hnil := ha.2 hno
    have hall : ∀ nd ∈ files, alphanumCount nd.2 = 0 := by
      intro nd hnd
      by_contra hc
      have : (alphanumCount nd.2 : Int) ∈ alphanumCounts files :=
        List.mem_map.2 ⟨nd, List.mem_filter.2 ⟨hnd, by simpa using hc⟩, rfl⟩
      rw [hnil] at this
      cases this
    show ratioMap (fun _ => none) files name = none
    rw [ratioMap_none files hall]

/-- A directory that holds a single empty file gives `-1` for both standard deviations
and for the word-length average, and an empty ratio map. -/
theorem C8_sentinel_means_no_data_witness :
    ∃ s : Stats ℝ, GetStats Real.sqrt emptyFileDir ['/'] = .ok s ∧
      s.AlphanumericCharsStdDev = -1 ∧ s.WordLenStdDev = -1 ∧ s.WordLenAvg = -1 ∧
      (∀ name, s.AlphanumericCharsPercentage name = none) ∧ s.FileCount = 1 := by
  obtain ⟨s, hs⟩ : ∃ s : Stats ℝ, GetStats Real.sqrt emptyFileDir ['/'] = .ok s := ⟨_, rfl⟩
  have hfi : emptyFileDir.ReadDir (statsDir ['/'])
      = .ok [{ Name := "empty.txt".toList, Size := 0, IsDir := false }] := by rfl
  have h := C8_sentinel_means_no_data emptyFileDir ['/'] s _ hs hfi
  have hread : ∀ data, emptyFileDir.ReadFile
      (statsDir ['/'] ++ ['/'] ++ "empty.txt".toList) = .ok data → data = [] := by
    intro data hd
    have h0 : emptyFileDir.ReadFile (statsDir ['/'] ++ ['/'] ++ "empty.txt".toList)
        = .ok [] := by rfl
    rw [h0] at hd
    cases hd
    rfl
  have hnw : NoWord emptyFileDir (statsDir ['/'])
      [{ Name := "empty.txt".toList, Size := 0, IsDir := false }] := by
    intro f hf _ data hdata
    rw [List.mem_singleton] at hf
    subst hf
    rw [hread data hdata]
    rfl
  have hna : NoAlphanumeric emptyFileDir (statsDir ['/'])
      [{ Name := "empty.txt".toList, Size := 0, IsDir := false }] := by
    intro f hf _ data hdata
    rw [List.mem_singleton] at hf
    subst hf
    rw [hread data hdata]
    rfl
  refine ⟨s, hs, h.2.2.1.2 hna, h.1.2 hnw, h.2.1.2 hnw, h.2.2.2.2.2 hna, ?_⟩
  obtain ⟨files, hfiles, rfl⟩ := GetStats_ok Real.sqrt emptyFileDir ['/'] s _ hs hfi
  have hf0 : regularFiles emptyFileDir (statsDir ['/'])
      [{ Name := "empty.txt".toList, Size := 0, IsDir := false }]
      = .ok [("empty.txt".toList, [])] := by rfl
  rw [hf0] at hfiles
  cases hfiles
  rfl

/-! ## Word lengths -/

/-- C9, as the code has it. For every text, `getWordCount` appends to `wordlengths`, in
order, one entry for each whitespace-delimited word of the text (every word is not empty
and holds no whitespace; the words together are the text without its whitespace), and the
entry is the number of bytes of the word in UTF-8. This is the number of characters of the
word when all its characters are ASCII. -/
theorem C9_word_lengths_are_byte_lengths {K : Type} (s : Stats K) (text : GoString) :
    (s.getWordCount text).internal.wordlengths
      = s.internal.wordlengths ++ (wordsOf text).map (fun w => (len w : Int)) ∧
    (∀ w ∈ wordsOf text, w ≠ [] ∧ ∀ c ∈ w, unicodeIsSpace c = false) ∧
    (wordsOf text).flatten = text.filter (fun c => !unicodeIsSpace c) ∧
    (∀ w ∈ wordsOf text, (∀ c ∈ w, c.toNat < 128) → (len w : Int) = (w.length : Int)) := by
  refine ⟨?_, fun w hw => wordsOf_mem text w hw, wordsOf_flatten text, ?_⟩
  · rw [getWordCount_eq, stringsFields_eq_wordsOf]
  · intro w _ hascii
    rw [len_of_ascii w hascii]

/-- The text `le café` has the words `le` and `café`; the entry appended for `café`, a
word of 4 characters, is 5. -/
theorem C9_word_lengths_counterexample :
    wordsOf "le café".toList = ["le".toList, "café".toList] ∧
    "café".toList.length = 4 ∧
    ((newStats ℚ).getWordCount "le café".toList).internal.wordlengths = [2, 5] ∧
    ((newStats ℚ).getWordCount "le café".toList).internal.wordlengths
      ≠ (wordsOf "le café".toList).map (fun w => (w.length : Int)) := by
  refine ⟨by decide, by decide, by decide, by decide⟩

/-! ## Words across file boundaries -/

/-- C10. For every sequence of file contents, the words of the combined buffer (every
content followed by a newline) are the words of the first content, then those of the
second, and so on: no word spans two files and the separators add none. When `GetStats`
succeeds on a listing whose regular files, in order, are `files`, the buffer built by its
loop is this combined buffer, the word lengths are those of the words of each file in
order, and the word-length average is `calcAvgAndStdDev` of them. -/
theorem C10_words_of_all_files {K : Type} [Field K] [DecidableEq K] (sqrt : K → K)
    (os : Snapshot) (path : GoString) (s : Stats K) (fi : List FileInfo)
    (files : List (GoString × GoString))
    (h : GetStats sqrt os path = .ok s) (hfi : os.ReadDir (statsDir path) = .ok fi)
    (hfiles : regularFiles os (statsDir path) fi = .ok files) :
    (∀ contents : List GoString,
      stringsFields (contents.foldl (fun all c => all ++ (c ++ ['\n'])) [])
        = (contents.map stringsFields).flatten) ∧
    (∃ s1, getStatsLoop os (statsDir path) fi (newStats K, [])
      = .ok (s1, (files.map (·.2)).foldl (fun all c => all ++ (c ++ ['\n'])) [])) ∧
    s.internal.wordlengths
      = ((files.map (fun nd => stringsFields nd.2)).flatten).map (fun w => (len w : Int)) ∧
    s.WordLenAvg = (calcAvgAndStdDev sqrt s.internal.wordlengths).1 := by
  have hbuf : ∀ (contents : List GoString) (start : GoString),
      contents.foldl (fun all c => all ++ (c ++ ['\n'])) start
        = start ++ combinedBuffer contents := by
    intro contents
    induction contents with
    | nil => intro start; simp [combinedBuffer]
    | cons c cs ih => intro start; simp [ih, combinedBuffer]
  obtain ⟨files2, hfiles2, rfl⟩ := GetStats_ok sqrt os path s fi h hfi
  rw [hfiles] at hfiles2
  cases hfiles2
  refine ⟨?_, ?_, ?_, rfl⟩
  · intro contents
    rw [hbuf, List.nil_append, stringsFields_combinedBuffer]
  · rw [getStatsLoop_eq, hfiles, hbuf]
    exact ⟨_, rfl⟩
  · show ((files.map (fun nd => wordsOf nd.2)).flatten).map (fun w => (len w : Int)) = _
    congr 2
    exact List.map_congr_left (fun nd _ => (stringsFields_eq_wordsOf nd.2).symm)

/-- The directory with `a.txt` = `ab1` and `b.txt` = `cd 22`: the words are `ab1`, `cd`
and `22`, their lengths 3, 2 and 2, and the word-length average is `7 / 3`. -/
theorem C10_words_of_all_files_witness :
    ∃ s : Stats ℝ, GetStats Real.sqrt exampleDir ['/'] = .ok s ∧
      stringsFields ("ab1".toList ++ ['\n'] ++ "cd 22".toList ++ ['\n'])
        = ["ab1".toList, "cd".toList, "22".toList] ∧
      s.internal.wordlengths = [3, 2, 2] ∧ s.WordLenAvg = 7 / 3 := by
  obtain ⟨s, hs⟩ : ∃ s : Stats ℝ, GetStats Real.sqrt exampleDir ['/'] = .ok s := ⟨_, rfl⟩
  have hfi : exampleDir.ReadDir (statsDir ['/']) = .ok exampleListing := by rfl
  have hfiles : regularFiles exampleDir (statsDir ['/']) exampleListing
      = .ok [("a.txt".toList, "ab1".toList), ("b.txt".toList, "cd 22".toList)] := by rfl
  have h := C10_words_of_all_files Real.sqrt exampleDir ['/'] s exampleListing _ hs hfi hfiles
  have hl : s.internal.wordlengths = [3, 2, 2] := by rw [h.2.2.1]; decide
  refine ⟨s, hs, by decide, hl, ?_⟩
  rw [h.2.2.2, hl, calcAvgAndStdDev_eq, if_neg (by decide)]
  simp only [populationAvg]
  norm_num

/-! ## What `validatePath` accepts -/

theorem stringsTrimRight_txt (filename : GoString) :
    len (stringsTrimRight filename ".txt".toList) = 0 ↔
      ∀ c ∈ filename, c = '.' ∨ c = 't' ∨ c = 'x' := by
  rw [len_eq_zero, stringsTrimRight, List.rdropWhile_eq_nil_iff]
  constructor
  · intro h c hc
    have := h c hc
    simp only [String.toList, List.elem_eq_mem, List.mem_cons, List.mem_singleton,
      List.not_mem_nil, or_false, decide_eq_true_eq] at this
    tauto
  · intro h c hc
    have := h c hc
    simp only [String.toList, List.elem_eq_mem, List.mem_cons, List.mem_singleton,
      List.not_mem_nil, or_false, decide_eq_true_eq]
    tauto

/-- The paths that `validatePath` accepts with the filename check on: an empty path or
one that does not start with a slash fails with `errInternalInvalidPath`; a path that
starts with a slash is accepted exactly when its last segment ends in `.txt` and holds a
character other than `.`, `t` and `x`, and fails with `errInternalInvalidFilename`
otherwise. -/
theorem validatePath_filename (path : GoString) :
    (path = [] ∨ stringsHasPrefix path ['/'] = false →
      ∀ check, validatePath path check = .error .errInternalInvalidPath) ∧
    (stringsHasPrefix path ['/'] = true →
      (stringsHasSuffix ((stringsSplit path '/').getLastD []) ".txt".toList = true ∧
          (∃ c ∈ (stringsSplit path '/').getLastD [], ¬ (c = '.' ∨ c = 't' ∨ c = 'x')) →
        validatePath path true = .ok { Path := filepathClean path }) ∧
      (¬ (stringsHasSuffix ((stringsSplit path '/').getLastD []) ".txt".toList = true ∧
          (∃ c ∈ (stringsSplit path '/').getLastD [], ¬ (c = '.' ∨ c = 't' ∨ c = 'x'))) →
        validatePath path true = .error .errInternalInvalidFilename)) := by
  constructor
  · intro h check
    unfold validatePath
    rcases h with h | h
    · rw [if_pos h]
    · by_cases hp : path = []
      · rw [if_pos hp]
      · rw [if_neg hp, if_pos (by simp [h])]
  · intro hpre
    have hp : path ≠ [] := by
      intro h; subst h; simp [stringsHasPrefix, List.isPrefixOf] at hpre
    constructor
    · rintro ⟨hsuf, c, hc, hnot⟩
      have htrim : ¬ len (stringsTrimRight ((stringsSplit path '/').getLastD [])
          ".txt".toList) = 0 := by
        rw [stringsTrimRight_txt]
        intro hall
        exact hnot (hall c hc)
      unfold validatePath
      simp only [hp, hpre, hsuf, htrim, if_false, if_true, Bool.not_true, Bool.false_eq_true]
    · intro hnot
      unfold validatePath
      simp only [hp, hpre, if_false, if_true, Bool.not_true, Bool.false_eq_true]
      by_cases hsuf : stringsHasSuffix ((stringsSplit path '/').getLastD []) ".txt".toList
          = true
      · have htrim : len (stringsTrimRight ((stringsSplit path '/').getLastD [])
            ".txt".toList) = 0 := by
          rw [stringsTrimRight_txt]
          intro c hc
          by_contra hcon
          exact hnot ⟨hsuf, c, hc, hcon⟩
        simp only [hsuf, htrim, if_true, Bool.not_true, Bool.false_eq_true, if_false]
      · have hsuf2 : stringsHasSuffix ((stringsSplit path '/').getLastD []) ".txt".toList
            = false := by simpa using hsuf
        simp only [hsuf2, Bool.not_false, if_true]

/-- The characters of the class `[a-zA-Z0-9]` are ASCII: each is one byte in UTF-8. -/
theorem isAlphanumeric_utf8Size (c : Char) (h : isAlphanumeric c = true) : c.utf8Size = 1 := by
  have hlt : c.toNat < 128 := by
    simp only [isAlphanumeric, Bool.or_eq_true, Bool.and_eq_true, decide_eq_true_eq,
      Char.le_def] at h
    have e1 : ('z' : Char).val.toNat = 122 := rfl
    have e2 : ('Z' : Char).val.toNat = 90 := rfl
    have e3 : ('9' : Char).val.toNat = 57 := rfl
    have hc : c.toNat = c.val.toNat := rfl
    rcases h with (⟨_, h⟩ | ⟨_, h⟩) | ⟨_, h⟩
    · have : c.val.toNat ≤ ('z' : Char).val.toNat := h
      omega
    · have : c.val.toNat ≤ ('Z' : Char).val.toNat := h
      omega
    · have : c.val.toNat ≤ ('9' : Char).val.toNat := h
      omega
  have := len_of_ascii [c] (by simpa using hlt)
  simpa [len] using this

end FilesAPI
